import Mathlib

set_option maxHeartbeats 1000000
set_option linter.unnecessarySeqFocus false
set_option linter.unusedVariables false

/-!
Verification development for the Connect 4 engine in `Connect4AiVsAi.py`.

The Python source is shallowly embedded: the board is a function from
(row, col) to the cell value, every loop becomes a `List` traversal over
the same index ranges as the Python `range` calls, and the `math.inf`
sentinels of the minimax search are modelled by an extended-integer type
`XInt` with `negInf` and `posInf` elements.
-/

/-- `EMPTY = 0` in the source. -/
def EMPTY : Nat := 0

/-- `P1_PIECE = 1` in the source. -/
def P1_PIECE : Nat := 1

/-- `P2_PIECE = 2` in the source. -/
def P2_PIECE : Nat := 2

/-- `CONNECT = 4` in the source. -/
def CONNECT : Nat := 4

/-- `ROWS = 6` in the source. -/
def ROWS : Nat := 6

/-- `COLUMNS = 7` in the source. -/
def COLUMNS : Nat := 7

/-- A board maps (row, col) to the cell value; only indices below
`ROWS`/`COLUMNS` are ever read by the embedded code. -/
abbrev Board := Nat → Nat → Nat

/-- `init_board`: the all-`EMPTY` board (`np.zeros((ROWS, COLUMNS))`). -/
def init_board : Board := fun _ _ => EMPTY

/-- `make_move(board, player_piece, row, col)`: set one cell. -/
def make_move (board : Board) (player_piece row col : Nat) : Board :=
  fun r c => if r = row ∧ c = col then player_piece else board r c

/-- `valid_spot(board, row, col)`. -/
def valid_spot (board : Board) (row col : Nat) : Bool :=
  board row col == EMPTY

/-- `lowest_row(board, col)`: scan rows from `ROWS-1` down to `0`, return
the first row whose cell in `col` is `EMPTY`, else `-1`. -/
def lowest_row (board : Board) (col : Nat) : Int :=
  match (List.range ROWS).reverse.find? (fun row => board row col == EMPTY) with
  | some row => (row : Int)
  | none => -1

/-- `get_valid_locations(board)`: columns (ascending) with `lowest_row > -1`. -/
def get_valid_locations (board : Board) : List Nat :=
  (List.range COLUMNS).filter (fun col => decide (-1 < lowest_row board col))

/-- Python `range(a, b)` as a list. -/
def rng (a b : Nat) : List Nat :=
  (List.range (b - a)).map (fun i => a + i)

/-- `check_win(board, player)`: scans every 4-cell window in the four line
directions for the player's piece (`P2_PIECE` when `player == 1`, else
`P1_PIECE`), exactly mirroring the four loop nests of the source. -/
def check_win (board : Board) (player : Nat) : Bool :=
  let player_piece := if player == 1 then P2_PIECE else P1_PIECE
  ((List.range ROWS).any fun row =>
    (List.range (COLUMNS - CONNECT + 1)).any fun col =>
      ((List.range CONNECT).countP fun i => board row (col + i) == player_piece) == CONNECT)
  || ((List.range COLUMNS).any fun col =>
    (List.range (ROWS - CONNECT + 1)).any fun row =>
      ((List.range CONNECT).countP fun i => board (row + i) col == player_piece) == CONNECT)
  || ((List.range (ROWS - CONNECT + 1)).any fun row =>
    (rng (COLUMNS - CONNECT) COLUMNS).any fun col =>
      ((List.range CONNECT).countP fun i => board (row + i) (col - i) == player_piece) == CONNECT)
  || ((List.range (ROWS - CONNECT + 1)).any fun row =>
    (List.range (COLUMNS - CONNECT + 1)).any fun col =>
      ((List.range CONNECT).countP fun i => board (row + i) (col + i) == player_piece) == CONNECT)

/-- `score_window(window, player)`: the own-piece `if/elif` chain plus the
independent opponent `if/elif` chain of the source. -/
def score_window (window : List Nat) (player : Nat) : Int :=
  let player_piece := if player == 1 then P2_PIECE else P1_PIECE
  let opp_piece := if player == 1 then P1_PIECE else P2_PIECE
  let own : Int :=
    if window.count player_piece == 4 then 100
    else if window.count player_piece == 3 && window.count EMPTY == 1 then 5
    else if window.count player_piece == 2 && window.count EMPTY == 2 then 2
    else 0
  let opp : Int :=
    if window.count opp_piece == 3 && window.count EMPTY == 1 then -4
    else if window.count opp_piece == 2 && window.count EMPTY == 2 then -1
    else 0
  own + opp

/-- The horizontal window `row_array[col:col+CONNECT]` of `score_board`. -/
def horiz_window (board : Board) (row col : Nat) : List Nat :=
  (List.range CONNECT).map fun i => board row (col + i)

/-- The vertical window `col_array[row:row+CONNECT]` of `score_board`. -/
def vert_window (board : Board) (row col : Nat) : List Nat :=
  (List.range CONNECT).map fun i => board (row + i) col

/-- The window `[board[row+CONNECT-1-i][col+i] for i in range(CONNECT)]`. -/
def diagA_window (board : Board) (row col : Nat) : List Nat :=
  (List.range CONNECT).map fun i => board (row + CONNECT - 1 - i) (col + i)

/-- The window `[board[row+i][col+i] for i in range(CONNECT)]`. -/
def diagB_window (board : Board) (row col : Nat) : List Nat :=
  (List.range CONNECT).map fun i => board (row + i) (col + i)

/-- `score_board(board, player)`: the four window sums of the source. -/
def score_board (board : Board) (player : Nat) : Int :=
  (((List.range ROWS).map fun row =>
      (((List.range (COLUMNS - CONNECT + 1)).map fun col =>
        score_window (horiz_window board row col) player).sum)).sum)
  + (((List.range COLUMNS).map fun col =>
      (((List.range (ROWS - CONNECT + 1)).map fun row =>
        score_window (vert_window board row col) player).sum)).sum)
  + (((List.range (ROWS - CONNECT + 1)).map fun row =>
      (((List.range (COLUMNS - CONNECT + 1)).map fun col =>
        score_window (diagA_window board row col) player).sum)).sum)
  + (((List.range (ROWS - CONNECT + 1)).map fun row =>
      (((List.range (COLUMNS - CONNECT + 1)).map fun col =>
        score_window (diagB_window board row col) player).sum)).sum)

/-- `is_terminal_board(board)`. -/
def is_terminal_board (board : Board) : Bool :=
  check_win board 0 || check_win board 1 || (get_valid_locations board).length == 0

/-- Extended integers modelling Python's ints together with `±math.inf`. -/
inductive XInt : Type
  | negInf : XInt
  | fin (n : Int) : XInt
  | posInf : XInt
deriving DecidableEq, Repr

namespace XInt

/-- The order on `XInt`: `negInf` below every `fin`, `posInf` above. -/
def le : XInt → XInt → Prop
  | negInf, _ => True
  | fin _, negInf => False
  | fin a, fin b => a ≤ b
  | fin _, posInf => True
  | posInf, posInf => True
  | posInf, _ => False

def decLE : (a b : XInt) → Decidable (le a b)
  | negInf, _ => isTrue trivial
  | fin _, negInf => isFalse (fun h => h)
  | fin a, fin b => Int.decLe a b
  | fin _, posInf => isTrue trivial
  | posInf, negInf => isFalse (fun h => h)
  | posInf, fin _ => isFalse (fun h => h)
  | posInf, posInf => isTrue trivial

instance : LinearOrder XInt where
  le := XInt.le
  le_refl := by intro a; cases a <;> simp [XInt.le]
  le_trans := by
    intro a b c hab hbc
    cases a <;> cases b <;> cases c <;> simp_all [XInt.le] <;> omega
  le_antisymm := by
    intro a b hab hba
    cases a <;> cases b <;> simp_all [XInt.le] <;> omega
  le_total := by
    intro a b
    cases a <;> cases b <;> simp [XInt.le] <;> omega
  decidableLE := XInt.decLE

lemma negInf_le (a : XInt) : negInf ≤ a := trivial

lemma le_posInf (a : XInt) : a ≤ posInf := by cases a <;> trivial

lemma fin_le_fin {a b : Int} : (fin a ≤ fin b) ↔ a ≤ b := Iff.rfl

lemma fin_lt_fin {a b : Int} : (fin a < fin b) ↔ a < b := by
  rw [lt_iff_le_not_le, fin_le_fin, fin_le_fin]
  omega

lemma negInf_lt_fin (n : Int) : negInf < fin n := by
  refine lt_of_le_of_ne (negInf_le _) (by simp)

lemma fin_lt_posInf (n : Int) : fin n < posInf := by
  refine lt_of_le_of_ne (le_posInf _) (by simp)

lemma negInf_lt_posInf : (negInf : XInt) < posInf := by
  refine lt_of_le_of_ne (negInf_le _) (by simp)

lemma not_posInf_le_fin (n : Int) : ¬ (posInf ≤ fin n) := fun h => h

lemma not_fin_le_negInf (n : Int) : ¬ (fin n ≤ negInf) := fun h => h

lemma not_posInf_lt (a : XInt) : ¬ (posInf < a) := by
  intro h
  exact absurd (le_posInf a) (not_le_of_lt h)

lemma not_lt_negInf (a : XInt) : ¬ (a < negInf) := by
  intro h
  exact absurd (negInf_le a) (not_le_of_lt h)

lemma lt_posInf_of_ne {a : XInt} (h : a ≠ posInf) : a < posInf :=
  lt_of_le_of_ne (le_posInf a) h

lemma negInf_lt_of_ne {a : XInt} (h : a ≠ negInf) : negInf < a :=
  lt_of_le_of_ne (negInf_le a) (fun hh => h hh.symm)

end XInt

/-- Number of `EMPTY` cells of the board (the termination measure of the
recursive search: each placed piece removes one empty cell). -/
def countEmpty (board : Board) : Nat :=
  (((Finset.range ROWS) ×ˢ (Finset.range COLUMNS)).filter
    (fun rc => board rc.1 rc.2 = EMPTY)).card

lemma countEmpty_make_move_lt (board : Board) (p row col : Nat)
    (hrow : row < ROWS) (hcol : col < COLUMNS)
    (hempty : board row col = EMPTY) (hp : p ≠ EMPTY) :
    countEmpty (make_move board p row col) < countEmpty board := by
  classical
  apply Finset.card_lt_card
  constructor
  · intro rc hrc
    simp only [Finset.mem_filter, Finset.mem_product, Finset.mem_range] at hrc ⊢
    refine ⟨hrc.1, ?_⟩
    have h2 := hrc.2
    by_cases hcell : rc.1 = row ∧ rc.2 = col
    · simp [make_move, hcell] at h2
      exact absurd h2 hp
    · simpa [make_move, hcell] using h2
  · intro hsub
    have hmem : (row, col) ∈ ((Finset.range ROWS) ×ˢ (Finset.range COLUMNS)).filter
        (fun rc => board rc.1 rc.2 = EMPTY) := by
      simp [Finset.mem_filter, Finset.mem_product, Finset.mem_range, hrow, hcol, hempty]
    have := hsub hmem
    simp only [Finset.mem_filter, Finset.mem_product, Finset.mem_range] at this
    have h2 := this.2
    simp [make_move] at h2
    exact hp h2

/-! ### Characterisation of `lowest_row` and `get_valid_locations` -/

lemma range_reverse_succ (n : Nat) :
    (List.range (n + 1)).reverse = n :: (List.range n).reverse := by
  rw [List.range_succ]
  simp

lemma find?_rev_range_eq_some {p : Nat → Bool} {n k : Nat} :
    ((List.range n).reverse.find? p = some k) ↔
      (k < n ∧ p k = true ∧ ∀ j, k < j → j < n → p j = false) := by
  induction n with
  | zero => simp
  | succ n ih =>
    rw [range_reverse_succ]
    by_cases hpn : p n = true
    · rw [List.find?_cons_of_pos _ hpn]
      constructor
      · rintro h
        have hk : k = n := by
          simpa using h.symm
        subst hk
        exact ⟨Nat.lt_succ_self _, hpn, fun j hj hj' => by omega⟩
      · rintro ⟨hk, hpk, hall⟩
        have hk2 : k = n := by
          by_contra hne
          have hkn : k < n := by omega
          have := hall n hkn (Nat.lt_succ_self _)
          rw [this] at hpn
          exact Bool.false_ne_true hpn
        subst hk2
        rfl
    · rw [List.find?_cons_of_neg _ (by simpa using hpn)]
      rw [ih]
      constructor
      · rintro ⟨hk, hpk, hall⟩
        refine ⟨by omega, hpk, fun j hj hj' => ?_⟩
        by_cases hjn : j = n
        · subst hjn
          simpa using hpn
        · exact hall j hj (by omega)
      · rintro ⟨hk, hpk, hall⟩
        have hkn : k ≠ n := by
          intro h
          subst h
          exact hpn hpk
        refine ⟨by omega, hpk, fun j hj hj' => hall j hj (by omega)⟩

lemma lowest_row_of_find?_none {board : Board} {col : Nat}
    (hfind : (List.range ROWS).reverse.find? (fun row => board row col == EMPTY) = none) :
    lowest_row board col = -1 := by
  unfold lowest_row
  rw [hfind]

lemma lowest_row_of_find?_some {board : Board} {col r : Nat}
    (hfind : (List.range ROWS).reverse.find? (fun row => board row col == EMPTY) = some r) :
    lowest_row board col = (r : Int) := by
  unfold lowest_row
  rw [hfind]

lemma lowest_row_eq_neg_one {board : Board} {col : Nat} :
    lowest_row board col = -1 ↔ ∀ r < ROWS, board r col ≠ EMPTY := by
  cases hfind : (List.range ROWS).reverse.find? (fun row => board row col == EMPTY) with
  | none =>
    rw [List.find?_eq_none] at hfind
    rw [lowest_row_of_find?_none (by rw [List.find?_eq_none]; exact hfind)]
    simp only [true_iff]
    intro r hr
    have := hfind r (by simp [List.mem_reverse, List.mem_range, hr])
    simpa using this
  | some r =>
    obtain ⟨hr, hpr, _⟩ := find?_rev_range_eq_some.mp hfind
    rw [lowest_row_of_find?_some hfind]
    constructor
    · intro h
      omega
    · intro h
      exact absurd (by simpa using hpr) (h r hr)

lemma lowest_row_spec {board : Board} {col : Nat} (h : -1 < lowest_row board col) :
    (lowest_row board col).toNat < ROWS ∧
      board (lowest_row board col).toNat col = EMPTY ∧
      ∀ j, (lowest_row board col).toNat < j → j < ROWS → board j col ≠ EMPTY := by
  cases hfind : (List.range ROWS).reverse.find? (fun row => board row col == EMPTY) with
  | none =>
    rw [lowest_row_of_find?_none hfind] at h
    omega
  | some r =>
    obtain ⟨hr, hpr, hall⟩ := find?_rev_range_eq_some.mp hfind
    rw [lowest_row_of_find?_some hfind]
    refine ⟨by simpa using hr, by simpa using hpr, fun j hj hj' => ?_⟩
    have := hall j (by simpa using hj) hj'
    simpa using this

lemma lowest_row_eq_coe {board : Board} {col r₀ : Nat} (h1 : r₀ < ROWS)
    (h2 : board r₀ col = EMPTY) (h3 : ∀ j, r₀ < j → j < ROWS → board j col ≠ EMPTY) :
    lowest_row board col = (r₀ : Int) := by
  unfold lowest_row
  rw [find?_rev_range_eq_some.mpr ⟨h1, by simpa using h2, fun j hj hj' => by
    simpa using h3 j hj hj'⟩]

lemma mem_valid_locations {board : Board} {c : Nat} :
    c ∈ get_valid_locations board ↔ c < COLUMNS ∧ -1 < lowest_row board c := by
  simp [get_valid_locations, List.mem_filter, List.mem_range]

lemma valid_locations_pairwise (board : Board) :
    (get_valid_locations board).Pairwise (· < ·) :=
  (List.pairwise_lt_range COLUMNS).filter _

lemma piece_ne_empty (player : Nat) :
    (if player == 1 then P2_PIECE else P1_PIECE) ≠ EMPTY := by
  by_cases h : player == 1 <;> simp [h, P1_PIECE, P2_PIECE, EMPTY]

lemma opp_piece_ne_empty (player : Nat) :
    (if player == 1 then P1_PIECE else P2_PIECE) ≠ EMPTY := by
  by_cases h : player == 1 <;> simp [h, P1_PIECE, P2_PIECE, EMPTY]

lemma valid_ne_nil_of_not_terminal {board : Board}
    (h : is_terminal_board board = false) : get_valid_locations board ≠ [] := by
  simp only [is_terminal_board, Bool.or_eq_false_iff] at h
  intro hnil
  have := h.2
  rw [hnil] at this
  simp at this

/-! ### The alpha-beta search `minimax` -/

mutual

/-- The `minimax` function of the source. `choice` models `random.choice`:
it supplies the initial `column` picked before each successor loop. -/
def minimax (choice : List Nat → Nat) (board : Board) (depth max_depth : Nat)
    (alpha beta : XInt) (maxPlayer : Bool) (player : Nat) : Option Nat × XInt :=
  if is_terminal_board board then
    if check_win board player then (none, XInt.fin 1000000)
    else if check_win board ((player + 1) % 2) then (none, XInt.fin (-1000000))
    else (none, XInt.fin 0)
  else if depth == max_depth then
    (none, XInt.fin (score_board board player))
  else
    let valid := get_valid_locations board
    if maxPlayer then
      minimaxLoop choice board depth max_depth valid XInt.negInf (some (choice valid))
        alpha beta true player (if player == 1 then P2_PIECE else P1_PIECE)
        (fun c hc => mem_valid_locations.mp hc) (piece_ne_empty player)
    else
      minimaxLoop choice board depth max_depth valid XInt.posInf (some (choice valid))
        alpha beta false player (if player == 1 then P1_PIECE else P2_PIECE)
        (fun c hc => mem_valid_locations.mp hc) (opp_piece_ne_empty player)
termination_by (countEmpty board, 1, 0)
decreasing_by
  · exact Prod.Lex.right _ (Prod.Lex.left _ _ (by omega))
  · exact Prod.Lex.right _ (Prod.Lex.left _ _ (by omega))

/-- The `for col in valid_locations` loop body of `minimax`: strict-improvement
update of `(value, column)`, the `alpha`/`beta` update, and the pruning break. -/
def minimaxLoop (choice : List Nat → Nat) (board : Board) (depth max_depth : Nat)
    (cols : List Nat) (value : XInt) (column : Option Nat) (alpha beta : XInt)
    (maxPlayer : Bool) (player pp : Nat)
    (hcols : ∀ c ∈ cols, c < COLUMNS ∧ -1 < lowest_row board c)
    (hpp : pp ≠ EMPTY) : Option Nat × XInt :=
  match cols with
  | [] => (column, value)
  | col :: rest =>
    let row := lowest_row board col
    let board_copy := make_move board pp row.toNat col
    let new_score :=
      (minimax choice board_copy (depth + 1) max_depth alpha beta (!maxPlayer) player).2
    if maxPlayer then
      let value2 := if value < new_score then new_score else value
      let column2 := if value < new_score then some col else column
      let alpha2 := max alpha value2
      if beta ≤ alpha2 then (column2, value2)
      else
        minimaxLoop choice board depth max_depth rest value2 column2 alpha2 beta true player pp
          (fun c hc => hcols c (List.mem_cons_of_mem _ hc)) hpp
    else
      let value2 := if new_score < value then new_score else value
      let column2 := if new_score < value then some col else column
      let beta2 := min beta value2
      if beta2 ≤ alpha then (column2, value2)
      else
        minimaxLoop choice board depth max_depth rest value2 column2 alpha beta2 false player pp
          (fun c hc => hcols c (List.mem_cons_of_mem _ hc)) hpp
termination_by (countEmpty board, 0, cols.length)
decreasing_by
  · have hc := hcols col (List.mem_cons_self _ _)
    have hs := lowest_row_spec hc.2
    exact Prod.Lex.left _ _
      (countEmpty_make_move_lt board pp _ col hs.1 hc.1 hs.2.1 hpp)
  · exact Prod.Lex.right _ (Prod.Lex.right _ (by simp))
  · exact Prod.Lex.right _ (Prod.Lex.right _ (by simp))

end

/-! ### The unpruned exhaustive depth-limited minimax (specification side) -/

mutual

/-- Spec-side reference: the unpruned exhaustive depth-limited minimax of the
specification's alpha-beta equivalence property. Identical to `minimax` with
the `alpha`/`beta` updates and the pruning break removed, initial column
`none`, strict-improvement updates over all valid columns in ascending
order. -/
def minimaxNP (board : Board) (depth max_depth : Nat)
    (maxPlayer : Bool) (player : Nat) : Option Nat × XInt :=
  if is_terminal_board board then
    if check_win board player then (none, XInt.fin 1000000)
    else if check_win board ((player + 1) % 2) then (none, XInt.fin (-1000000))
    else (none, XInt.fin 0)
  else if depth == max_depth then
    (none, XInt.fin (score_board board player))
  else
    let valid := get_valid_locations board
    if maxPlayer then
      minimaxNPLoop board depth max_depth valid XInt.negInf none true player
        (if player == 1 then P2_PIECE else P1_PIECE)
        (fun c hc => mem_valid_locations.mp hc) (piece_ne_empty player)
    else
      minimaxNPLoop board depth max_depth valid XInt.posInf none false player
        (if player == 1 then P1_PIECE else P2_PIECE)
        (fun c hc => mem_valid_locations.mp hc) (opp_piece_ne_empty player)
termination_by (countEmpty board, 1, 0)
decreasing_by
  · exact Prod.Lex.right _ (Prod.Lex.left _ _ (by omega))
  · exact Prod.Lex.right _ (Prod.Lex.left _ _ (by omega))

/-- Successor loop of `minimaxNP`: no alpha/beta state and no break. -/
def minimaxNPLoop (board : Board) (depth max_depth : Nat)
    (cols : List Nat) (value : XInt) (column : Option Nat)
    (maxPlayer : Bool) (player pp : Nat)
    (hcols : ∀ c ∈ cols, c < COLUMNS ∧ -1 < lowest_row board c)
    (hpp : pp ≠ EMPTY) : Option Nat × XInt :=
  match cols with
  | [] => (column, value)
  | col :: rest =>
    let new_score :=
      (minimaxNP (make_move board pp (lowest_row board col).toNat col)
        (depth + 1) max_depth (!maxPlayer) player).2
    if maxPlayer then
      minimaxNPLoop board depth max_depth rest
        (if value < new_score then new_score else value)
        (if value < new_score then some col else column) true player pp
        (fun c hc => hcols c (List.mem_cons_of_mem _ hc)) hpp
    else
      minimaxNPLoop board depth max_depth rest
        (if new_score < value then new_score else value)
        (if new_score < value then some col else column) false player pp
        (fun c hc => hcols c (List.mem_cons_of_mem _ hc)) hpp
termination_by (countEmpty board, 0, cols.length)
decreasing_by
  · have hc := hcols col (List.mem_cons_self _ _)
    have hs := lowest_row_spec hc.2
    exact Prod.Lex.left _ _
      (countEmpty_make_move_lt board pp _ col hs.1 hc.1 hs.2.1 hpp)
  · exact Prod.Lex.right _ (Prod.Lex.right _ (by simp))
  · exact Prod.Lex.right _ (Prod.Lex.right _ (by simp))

end

/-! ### Unfolding lemmas for the two searches -/

/-- Value of the pruned child call made by `minimaxLoop` for column `col`. -/
def childPV (choice : List Nat → Nat) (board : Board) (depth max_depth : Nat)
    (alpha beta : XInt) (maxPlayer : Bool) (player pp col : Nat) : XInt :=
  (minimax choice (make_move board pp (lowest_row board col).toNat col)
    (depth + 1) max_depth alpha beta (!maxPlayer) player).2

/-- Value of the unpruned child call made by `minimaxNPLoop` for column `col`. -/
def childNPV (board : Board) (depth max_depth : Nat)
    (maxPlayer : Bool) (player pp col : Nat) : XInt :=
  (minimaxNP (make_move board pp (lowest_row board col).toNat col)
    (depth + 1) max_depth (!maxPlayer) player).2

lemma check_win_of_ne_one {board : Board} {player : Nat} (h : (player == 1) = false) :
    check_win board player = check_win board 0 := by
  unfold check_win
  rw [h]
  rfl

lemma opp_player_cases (player : Nat) : (player + 1) % 2 = 0 ∨ (player + 1) % 2 = 1 := by
  omega

lemma terminal_of_win {board : Board} {player : Nat}
    (hw : check_win board player = true) : is_terminal_board board = true := by
  by_cases h1 : player = 1
  · subst h1
    simp [is_terminal_board, hw]
  · rw [check_win_of_ne_one (by simpa using h1)] at hw
    simp [is_terminal_board, hw]

lemma minimax_of_win {choice : List Nat → Nat} {board : Board}
    {depth max_depth : Nat} {alpha beta : XInt} {maxPlayer : Bool} {player : Nat}
    (hw : check_win board player = true) :
    minimax choice board depth max_depth alpha beta maxPlayer player =
      (none, XInt.fin 1000000) := by
  rw [minimax]
  simp [terminal_of_win hw, hw]

lemma minimax_of_opp_win {choice : List Nat → Nat} {board : Board}
    {depth max_depth : Nat} {alpha beta : XInt} {maxPlayer : Bool} {player : Nat}
    (hw : check_win board player = false)
    (hl : check_win board ((player + 1) % 2) = true) :
    minimax choice board depth max_depth alpha beta maxPlayer player =
      (none, XInt.fin (-1000000)) := by
  have hterm : is_terminal_board board = true := terminal_of_win hl
  rw [minimax]
  simp [hterm, hw, hl]

lemma minimax_of_draw {choice : List Nat → Nat} {board : Board}
    {depth max_depth : Nat} {alpha beta : XInt} {maxPlayer : Bool} {player : Nat}
    (hterm : is_terminal_board board = true)
    (hw : check_win board player = false)
    (hl : check_win board ((player + 1) % 2) = false) :
    minimax choice board depth max_depth alpha beta maxPlayer player =
      (none, XInt.fin 0) := by
  rw [minimax]
  simp [hterm, hw, hl]

lemma minimax_of_depth {choice : List Nat → Nat} {board : Board}
    {depth max_depth : Nat} {alpha beta : XInt} {maxPlayer : Bool} {player : Nat}
    (hterm : is_terminal_board board = false) (hd : depth = max_depth) :
    minimax choice board depth max_depth alpha beta maxPlayer player =
      (none, XInt.fin (score_board board player)) := by
  rw [minimax]
  simp [hterm, hd]

lemma minimax_to_loop_max {choice : List Nat → Nat} {board : Board}
    {depth max_depth : Nat} {alpha beta : XInt} {player : Nat}
    (hterm : is_terminal_board board = false) (hd : depth ≠ max_depth) :
    minimax choice board depth max_depth alpha beta true player =
      minimaxLoop choice board depth max_depth (get_valid_locations board)
        XInt.negInf (some (choice (get_valid_locations board))) alpha beta true player
        (if player == 1 then P2_PIECE else P1_PIECE)
        (fun c hc => mem_valid_locations.mp hc) (piece_ne_empty player) := by
  rw [minimax]
  simp [hterm, hd]

lemma minimax_to_loop_min {choice : List Nat → Nat} {board : Board}
    {depth max_depth : Nat} {alpha beta : XInt} {player : Nat}
    (hterm : is_terminal_board board = false) (hd : depth ≠ max_depth) :
    minimax choice board depth max_depth alpha beta false player =
      minimaxLoop choice board depth max_depth (get_valid_locations board)
        XInt.posInf (some (choice (get_valid_locations board))) alpha beta false player
        (if player == 1 then P1_PIECE else P2_PIECE)
        (fun c hc => mem_valid_locations.mp hc) (opp_piece_ne_empty player) := by
  rw [minimax]
  simp [hterm, hd]

lemma minimaxLoop_nil {choice : List Nat → Nat} {board : Board}
    {depth max_depth : Nat} {value : XInt} {column : Option Nat} {alpha beta : XInt}
    {maxPlayer : Bool} {player pp : Nat} {hcols : ∀ c ∈ ([] : List Nat), c < COLUMNS ∧ -1 < lowest_row board c}
    {hpp : pp ≠ EMPTY} :
    minimaxLoop choice board depth max_depth [] value column alpha beta maxPlayer player pp
      hcols hpp = (column, value) := by
  rw [minimaxLoop]

lemma minimaxLoop_cons_max {choice : List Nat → Nat} {board : Board}
    {depth max_depth : Nat} {col : Nat} {rest : List Nat} {value : XInt}
    {column : Option Nat} {alpha beta : XInt} {player pp : Nat}
    {hcols : ∀ c ∈ col :: rest, c < COLUMNS ∧ -1 < lowest_row board c}
    {hpp : pp ≠ EMPTY}
    (hrest : ∀ c ∈ rest, c < COLUMNS ∧ -1 < lowest_row board c) :
    minimaxLoop choice board depth max_depth (col :: rest) value column alpha beta true player pp
      hcols hpp =
      (if beta ≤ max alpha (if value < childPV choice board depth max_depth alpha beta true player pp col
            then childPV choice board depth max_depth alpha beta true player pp col else value) then
        ((if value < childPV choice board depth max_depth alpha beta true player pp col
            then some col else column),
          (if value < childPV choice board depth max_depth alpha beta true player pp col
            then childPV choice board depth max_depth alpha beta true player pp col else value))
      else
        minimaxLoop choice board depth max_depth rest
          (if value < childPV choice board depth max_depth alpha beta true player pp col
            then childPV choice board depth max_depth alpha beta true player pp col else value)
          (if value < childPV choice board depth max_depth alpha beta true player pp col
            then some col else column)
          (max alpha (if value < childPV choice board depth max_depth alpha beta true player pp col
            then childPV choice board depth max_depth alpha beta true player pp col else value))
          beta true player pp hrest hpp) := by
  rw [minimaxLoop]
  rfl

lemma minimaxLoop_cons_min {choice : List Nat → Nat} {board : Board}
    {depth max_depth : Nat} {col : Nat} {rest : List Nat} {value : XInt}
    {column : Option Nat} {alpha beta : XInt} {player pp : Nat}
    {hcols : ∀ c ∈ col :: rest, c < COLUMNS ∧ -1 < lowest_row board c}
    {hpp : pp ≠ EMPTY}
    (hrest : ∀ c ∈ rest, c < COLUMNS ∧ -1 < lowest_row board c) :
    minimaxLoop choice board depth max_depth (col :: rest) value column alpha beta false player pp
      hcols hpp =
      (if min beta (if childPV choice board depth max_depth alpha beta false player pp col < value
            then childPV choice board depth max_depth alpha beta false player pp col else value) ≤ alpha then
        ((if childPV choice board depth max_depth alpha beta false player pp col < value
            then some col else column),
          (if childPV choice board depth max_depth alpha beta false player pp col < value
            then childPV choice board depth max_depth alpha beta false player pp col else value))
      else
        minimaxLoop choice board depth max_depth rest
          (if childPV choice board depth max_depth alpha beta false player pp col < value
            then childPV choice board depth max_depth alpha beta false player pp col else value)
          (if childPV choice board depth max_depth alpha beta false player pp col < value
            then some col else column)
          alpha
          (min beta (if childPV choice board depth max_depth alpha beta false player pp col < value
            then childPV choice board depth max_depth alpha beta false player pp col else value))
          false player pp hrest hpp) := by
  rw [minimaxLoop]
  rfl

lemma minimaxNP_of_win {board : Board} {depth max_depth : Nat}
    {maxPlayer : Bool} {player : Nat} (hw : check_win board player = true) :
    minimaxNP board depth max_depth maxPlayer player = (none, XInt.fin 1000000) := by
  rw [minimaxNP]
  simp [terminal_of_win hw, hw]

lemma minimaxNP_of_opp_win {board : Board} {depth max_depth : Nat}
    {maxPlayer : Bool} {player : Nat} (hw : check_win board player = false)
    (hl : check_win board ((player + 1) % 2) = true) :
    minimaxNP board depth max_depth maxPlayer player = (none, XInt.fin (-1000000)) := by
  have hterm : is_terminal_board board = true := terminal_of_win hl
  rw [minimaxNP]
  simp [hterm, hw, hl]

lemma minimaxNP_of_draw {board : Board} {depth max_depth : Nat}
    {maxPlayer : Bool} {player : Nat} (hterm : is_terminal_board board = true)
    (hw : check_win board player = false)
    (hl : check_win board ((player + 1) % 2) = false) :
    minimaxNP board depth max_depth maxPlayer player = (none, XInt.fin 0) := by
  rw [minimaxNP]
  simp [hterm, hw, hl]

lemma minimaxNP_of_depth {board : Board} {depth max_depth : Nat}
    {maxPlayer : Bool} {player : Nat} (hterm : is_terminal_board board = false)
    (hd : depth = max_depth) :
    minimaxNP board depth max_depth maxPlayer player =
      (none, XInt.fin (score_board board player)) := by
  rw [minimaxNP]
  simp [hterm, hd]

lemma minimaxNP_to_loop_max {board : Board} {depth max_depth : Nat} {player : Nat}
    (hterm : is_terminal_board board = false) (hd : depth ≠ max_depth) :
    minimaxNP board depth max_depth true player =
      minimaxNPLoop board depth max_depth (get_valid_locations board)
        XInt.negInf none true player
        (if player == 1 then P2_PIECE else P1_PIECE)
        (fun c hc => mem_valid_locations.mp hc) (piece_ne_empty player) := by
  rw [minimaxNP]
  simp [hterm, hd]

lemma minimaxNP_to_loop_min {board : Board} {depth max_depth : Nat} {player : Nat}
    (hterm : is_terminal_board board = false) (hd : depth ≠ max_depth) :
    minimaxNP board depth max_depth false player =
      minimaxNPLoop board depth max_depth (get_valid_locations board)
        XInt.posInf none false player
        (if player == 1 then P1_PIECE else P2_PIECE)
        (fun c hc => mem_valid_locations.mp hc) (opp_piece_ne_empty player) := by
  rw [minimaxNP]
  simp [hterm, hd]

lemma minimaxNPLoop_nil {board : Board} {depth max_depth : Nat} {value : XInt}
    {column : Option Nat} {maxPlayer : Bool} {player pp : Nat}
    {hcols : ∀ c ∈ ([] : List Nat), c < COLUMNS ∧ -1 < lowest_row board c}
    {hpp : pp ≠ EMPTY} :
    minimaxNPLoop board depth max_depth [] value column maxPlayer player pp hcols hpp =
      (column, value) := by
  rw [minimaxNPLoop]

lemma minimaxNPLoop_cons_max {board : Board} {depth max_depth : Nat}
    {col : Nat} {rest : List Nat} {value : XInt} {column : Option Nat} {player pp : Nat}
    {hcols : ∀ c ∈ col :: rest, c < COLUMNS ∧ -1 < lowest_row board c}
    {hpp : pp ≠ EMPTY}
    (hrest : ∀ c ∈ rest, c < COLUMNS ∧ -1 < lowest_row board c) :
    minimaxNPLoop board depth max_depth (col :: rest) value column true player pp hcols hpp =
      minimaxNPLoop board depth max_depth rest
        (if value < childNPV board depth max_depth true player pp col
          then childNPV board depth max_depth true player pp col else value)
        (if value < childNPV board depth max_depth true player pp col
          then some col else column) true player pp hrest hpp := by
  rw [minimaxNPLoop]
  rfl

lemma minimaxNPLoop_cons_min {board : Board} {depth max_depth : Nat}
    {col : Nat} {rest : List Nat} {value : XInt} {column : Option Nat} {player pp : Nat}
    {hcols : ∀ c ∈ col :: rest, c < COLUMNS ∧ -1 < lowest_row board c}
    {hpp : pp ≠ EMPTY}
    (hrest : ∀ c ∈ rest, c < COLUMNS ∧ -1 < lowest_row board c) :
    minimaxNPLoop board depth max_depth (col :: rest) value column false player pp hcols hpp =
      minimaxNPLoop board depth max_depth rest
        (if childNPV board depth max_depth false player pp col < value
          then childNPV board depth max_depth false player pp col else value)
        (if childNPV board depth max_depth false player pp col < value
          then some col else column) false player pp hrest hpp := by
  rw [minimaxNPLoop]
  rfl

/-! ### Finiteness of search values -/

lemma countEmpty_child_lt {board : Board} {c pp : Nat}
    (hc : c ∈ get_valid_locations board) (hpp : pp ≠ EMPTY) :
    countEmpty (make_move board pp (lowest_row board c).toNat c) < countEmpty board := by
  obtain ⟨h1, h2⟩ := mem_valid_locations.mp hc
  have hs := lowest_row_spec h2
  exact countEmpty_make_move_lt _ _ _ _ hs.1 h1 hs.2.1 hpp

lemma terminal_of_countEmpty_zero {board : Board} (h : countEmpty board = 0) :
    is_terminal_board board = true := by
  suffices hval : get_valid_locations board = [] by
    simp [is_terminal_board, hval]
  by_contra hne
  obtain ⟨c, hc⟩ := List.exists_mem_of_ne_nil _ hne
  obtain ⟨h1, h2⟩ := mem_valid_locations.mp hc
  have hs := lowest_row_spec h2
  have hmem : ((lowest_row board c).toNat, c) ∈
      ((Finset.range ROWS) ×ˢ (Finset.range COLUMNS)).filter
        (fun rc => board rc.1 rc.2 = EMPTY) := by
    simp [Finset.mem_filter, Finset.mem_product, Finset.mem_range, hs.1, h1, hs.2.1]
  have hpos := Finset.card_pos.mpr ⟨_, hmem⟩
  unfold countEmpty at h
  omega

lemma bool_not_true {b : Bool} (h : ¬ b = true) : b = false := by
  simpa using h

lemma minimaxNP_leaf_val_fin {board : Board} {depth max_depth : Nat}
    {maxPlayer : Bool} {player : Nat}
    (h : is_terminal_board board = true ∨ depth = max_depth) :
    ∃ n : Int, (minimaxNP board depth max_depth maxPlayer player).2 = XInt.fin n := by
  by_cases hterm : is_terminal_board board = true
  · by_cases hw : check_win board player = true
    · exact ⟨1000000, by rw [minimaxNP_of_win hw]⟩
    · by_cases hl : check_win board ((player + 1) % 2) = true
      · exact ⟨-1000000, by rw [minimaxNP_of_opp_win (bool_not_true hw) hl]⟩
      · exact ⟨0, by rw [minimaxNP_of_draw hterm (bool_not_true hw) (bool_not_true hl)]⟩
  · have hd : depth = max_depth := by tauto
    exact ⟨score_board board player, by rw [minimaxNP_of_depth (bool_not_true hterm) hd]⟩

lemma minimax_leaf_val_fin {choice : List Nat → Nat} {board : Board}
    {depth max_depth : Nat} {alpha beta : XInt} {maxPlayer : Bool} {player : Nat}
    (h : is_terminal_board board = true ∨ depth = max_depth) :
    ∃ n : Int, (minimax choice board depth max_depth alpha beta maxPlayer player).2 = XInt.fin n := by
  by_cases hterm : is_terminal_board board = true
  · by_cases hw : check_win board player = true
    · exact ⟨1000000, by rw [minimax_of_win hw]⟩
    · by_cases hl : check_win board ((player + 1) % 2) = true
      · exact ⟨-1000000, by rw [minimax_of_opp_win (bool_not_true hw) hl]⟩
      · exact ⟨0, by rw [minimax_of_draw hterm (bool_not_true hw) (bool_not_true hl)]⟩
  · have hd : depth = max_depth := by tauto
    exact ⟨score_board board player, by rw [minimax_of_depth (bool_not_true hterm) hd]⟩

lemma minimaxNPLoop_val_fin {board : Board} {depth max_depth : Nat}
    {maxPlayer : Bool} {player pp : Nat} :
    ∀ (cols : List Nat) (value : XInt) (column : Option Nat)
      (hcols : ∀ c ∈ cols, c < COLUMNS ∧ -1 < lowest_row board c) (hpp : pp ≠ EMPTY),
      (∀ c ∈ cols, ∃ n : Int, childNPV board depth max_depth maxPlayer player pp c = XInt.fin n) →
      ((∃ n : Int, value = XInt.fin n) ∨
        (value = (if maxPlayer then XInt.negInf else XInt.posInf) ∧ cols ≠ [])) →
      ∃ n : Int, (minimaxNPLoop board depth max_depth cols value column maxPlayer player pp
        hcols hpp).2 = XInt.fin n := by
  intro cols
  induction cols with
  | nil =>
    intro value column hcols hpp hchild hval
    rw [minimaxNPLoop_nil]
    rcases hval with ⟨n, rfl⟩ | ⟨_, hne⟩
    · exact ⟨n, rfl⟩
    · exact absurd rfl hne
  | cons col rest ih =>
    intro value column hcols hpp hchild hval
    obtain ⟨s, hs⟩ := hchild col (List.mem_cons_self _ _)
    have hrest : ∀ c ∈ rest, c < COLUMNS ∧ -1 < lowest_row board c :=
      fun c hc => hcols c (List.mem_cons_of_mem _ hc)
    have hchildr : ∀ c ∈ rest, ∃ n : Int,
        childNPV board depth max_depth maxPlayer player pp c = XInt.fin n :=
      fun c hc => hchild c (List.mem_cons_of_mem _ hc)
    cases maxPlayer with
    | true =>
      rw [minimaxNPLoop_cons_max hrest]
      refine ih _ _ hrest hpp hchildr (Or.inl ?_)
      by_cases hlt : value < childNPV board depth max_depth true player pp col
      · rw [if_pos hlt, hs]
        exact ⟨s, rfl⟩
      · rw [if_neg hlt]
        rcases hval with ⟨n, rfl⟩ | ⟨hv, _⟩
        · exact ⟨n, rfl⟩
        · simp at hv
          rw [hv, hs] at hlt
          exact absurd (XInt.negInf_lt_fin s) hlt
    | false =>
      rw [minimaxNPLoop_cons_min hrest]
      refine ih _ _ hrest hpp hchildr (Or.inl ?_)
      by_cases hlt : childNPV board depth max_depth false player pp col < value
      · rw [if_pos hlt, hs]
        exact ⟨s, rfl⟩
      · rw [if_neg hlt]
        rcases hval with ⟨n, rfl⟩ | ⟨hv, _⟩
        · exact ⟨n, rfl⟩
        · simp at hv
          rw [hv, hs] at hlt
          exact absurd (XInt.fin_lt_posInf s) hlt

lemma minimaxNP_val_fin :
    ∀ (board : Board) (depth max_depth : Nat) (maxPlayer : Bool) (player : Nat),
      ∃ n : Int, (minimaxNP board depth max_depth maxPlayer player).2 = XInt.fin n := by
  suffices H : ∀ N (board : Board), countEmpty board ≤ N →
      ∀ (depth max_depth : Nat) (maxPlayer : Bool) (player : Nat),
        ∃ n : Int, (minimaxNP board depth max_depth maxPlayer player).2 = XInt.fin n by
    intro board depth max_depth maxPlayer player
    exact H (countEmpty board) board le_rfl depth max_depth maxPlayer player
  intro N
  induction N with
  | zero =>
    intro board hb depth max_depth maxPlayer player
    exact minimaxNP_leaf_val_fin (Or.inl (terminal_of_countEmpty_zero (by omega)))
  | succ N ih =>
    intro board hb depth max_depth maxPlayer player
    by_cases hterm : is_terminal_board board = true
    · exact minimaxNP_leaf_val_fin (Or.inl hterm)
    · by_cases hd : depth = max_depth
      · exact minimaxNP_leaf_val_fin (Or.inr hd)
      · have hterm' := bool_not_true hterm
        have hvne := valid_ne_nil_of_not_terminal hterm'
        have hchild : ∀ pp, pp ≠ EMPTY → ∀ c ∈ get_valid_locations board,
            ∀ (mp : Bool), ∃ n : Int,
            childNPV board depth max_depth mp player pp c = XInt.fin n := by
          intro pp hpp c hc mp
          have hlt := countEmpty_child_lt hc hpp
          exact ih _ (by omega) _ _ _ _
        cases maxPlayer with
        | true =>
          rw [minimaxNP_to_loop_max hterm' hd]
          exact minimaxNPLoop_val_fin _ _ _ _ _
            (fun c hc => hchild _ (piece_ne_empty player) c hc true)
            (Or.inr ⟨by simp, hvne⟩)
        | false =>
          rw [minimaxNP_to_loop_min hterm' hd]
          exact minimaxNPLoop_val_fin _ _ _ _ _
            (fun c hc => hchild _ (opp_piece_ne_empty player) c hc false)
            (Or.inr ⟨by simp, hvne⟩)

lemma minimaxLoop_val_fin {choice : List Nat → Nat} {board : Board}
    {depth max_depth : Nat} {maxPlayer : Bool} {player pp : Nat} :
    ∀ (cols : List Nat) (value : XInt) (column : Option Nat) (alpha beta : XInt)
      (hcols : ∀ c ∈ cols, c < COLUMNS ∧ -1 < lowest_row board c) (hpp : pp ≠ EMPTY),
      (∀ c ∈ cols, ∀ a b : XInt, ∃ n : Int,
        childPV choice board depth max_depth a b maxPlayer player pp c = XInt.fin n) →
      ((∃ n : Int, value = XInt.fin n) ∨
        (value = (if maxPlayer then XInt.negInf else XInt.posInf) ∧ cols ≠ [])) →
      ∃ n : Int, (minimaxLoop choice board depth max_depth cols value column alpha beta
        maxPlayer player pp hcols hpp).2 = XInt.fin n := by
  intro cols
  induction cols with
  | nil =>
    intro value column alpha beta hcols hpp hchild hval
    rw [minimaxLoop_nil]
    rcases hval with ⟨n, rfl⟩ | ⟨_, hne⟩
    · exact ⟨n, rfl⟩
    · exact absurd rfl hne
  | cons col rest ih =>
    intro value column alpha beta hcols hpp hchild hval
    obtain ⟨s, hs⟩ := hchild col (List.mem_cons_self _ _) alpha beta
    have hrest : ∀ c ∈ rest, c < COLUMNS ∧ -1 < lowest_row board c :=
      fun c hc => hcols c (List.mem_cons_of_mem _ hc)
    have hchildr : ∀ c ∈ rest, ∀ a b : XInt, ∃ n : Int,
        childPV choice board depth max_depth a b maxPlayer player pp c = XInt.fin n :=
      fun c hc => hchild c (List.mem_cons_of_mem _ hc)
    cases maxPlayer with
    | true =>
      rw [minimaxLoop_cons_max hrest]
      have hv2 : ∃ n : Int,
          (if value < childPV choice board depth max_depth alpha beta true player pp col
            then childPV choice board depth max_depth alpha beta true player pp col
            else value) = XInt.fin n := by
        by_cases hlt : value < childPV choice board depth max_depth alpha beta true player pp col
        · rw [if_pos hlt, hs]
          exact ⟨s, rfl⟩
        · rw [if_neg hlt]
          rcases hval with ⟨n, rfl⟩ | ⟨hv, _⟩
          · exact ⟨n, rfl⟩
          · simp at hv
            rw [hv, hs] at hlt
            exact absurd (XInt.negInf_lt_fin s) hlt
      obtain ⟨m, hm⟩ := hv2
      by_cases hbr : beta ≤ max alpha
          (if value < childPV choice board depth max_depth alpha beta true player pp col
            then childPV choice board depth max_depth alpha beta true player pp col
            else value)
      · rw [if_pos hbr]
        exact ⟨m, hm⟩
      · rw [if_neg hbr]
        exact ih _ _ _ _ hrest hpp hchildr (Or.inl ⟨m, hm⟩)
    | false =>
      rw [minimaxLoop_cons_min hrest]
      have hv2 : ∃ n : Int,
          (if childPV choice board depth max_depth alpha beta false player pp col < value
            then childPV choice board depth max_depth alpha beta false player pp col
            else value) = XInt.fin n := by
        by_cases hlt : childPV choice board depth max_depth alpha beta false player pp col < value
        · rw [if_pos hlt, hs]
          exact ⟨s, rfl⟩
        · rw [if_neg hlt]
          rcases hval with ⟨n, rfl⟩ | ⟨hv, _⟩
          · exact ⟨n, rfl⟩
          · simp at hv
            rw [hv, hs] at hlt
            exact absurd (XInt.fin_lt_posInf s) hlt
      obtain ⟨m, hm⟩ := hv2
      by_cases hbr : min beta
          (if childPV choice board depth max_depth alpha beta false player pp col < value
            then childPV choice board depth max_depth alpha beta false player pp col
            else value) ≤ alpha
      · rw [if_pos hbr]
        exact ⟨m, hm⟩
      · rw [if_neg hbr]
        exact ih _ _ _ _ hrest hpp hchildr (Or.inl ⟨m, hm⟩)

lemma minimax_val_fin :
    ∀ (choice : List Nat → Nat) (board : Board) (depth max_depth : Nat)
      (alpha beta : XInt) (maxPlayer : Bool) (player : Nat),
      ∃ n : Int, (minimax choice board depth max_depth alpha beta maxPlayer player).2 = XInt.fin n := by
  suffices H : ∀ N (board : Board), countEmpty board ≤ N →
      ∀ (choice : List Nat → Nat) (depth max_depth : Nat) (alpha beta : XInt)
        (maxPlayer : Bool) (player : Nat),
        ∃ n : Int, (minimax choice board depth max_depth alpha beta maxPlayer player).2 = XInt.fin n by
    intro choice board depth max_depth alpha beta maxPlayer player
    exact H (countEmpty board) board le_rfl choice depth max_depth alpha beta maxPlayer player
  intro N
  induction N with
  | zero =>
    intro board hb choice depth max_depth alpha beta maxPlayer player
    exact minimax_leaf_val_fin (Or.inl (terminal_of_countEmpty_zero (by omega)))
  | succ N ih =>
    intro board hb choice depth max_depth alpha beta maxPlayer player
    by_cases hterm : is_terminal_board board = true
    · exact minimax_leaf_val_fin (Or.inl hterm)
    · by_cases hd : depth = max_depth
      · exact minimax_leaf_val_fin (Or.inr hd)
      · have hterm' := bool_not_true hterm
        have hvne := valid_ne_nil_of_not_terminal hterm'
        have hchild : ∀ pp, pp ≠ EMPTY → ∀ c ∈ get_valid_locations board,
            ∀ (mp : Bool) (a b : XInt), ∃ n : Int,
            childPV choice board depth max_depth a b mp player pp c = XInt.fin n := by
          intro pp hpp c hc mp a b
          have hlt := countEmpty_child_lt hc hpp
          exact ih _ (by omega) _ _ _ _ _ _ _
        cases maxPlayer with
        | true =>
          rw [minimax_to_loop_max hterm' hd]
          exact minimaxLoop_val_fin _ _ _ _ _ _ _
            (fun c hc => hchild _ (piece_ne_empty player) c hc true)
            (Or.inr ⟨by simp, hvne⟩)
        | false =>
          rw [minimax_to_loop_min hterm' hd]
          exact minimaxLoop_val_fin _ _ _ _ _ _ _
            (fun c hc => hchild _ (opp_piece_ne_empty player) c hc false)
            (Or.inr ⟨by simp, hvne⟩)

/-! ### Order helpers and NP loop monotonicity -/

lemma ite_lt_eq_max (v s : XInt) : (if v < s then s else v) = max v s := by
  by_cases h : v < s
  · rw [if_pos h]
    exact (max_eq_right (le_of_lt h)).symm
  · rw [if_neg h]
    exact (max_eq_left (le_of_not_lt h)).symm

lemma ite_lt_eq_min (v s : XInt) : (if s < v then s else v) = min v s := by
  by_cases h : s < v
  · rw [if_pos h]
    exact (min_eq_right (le_of_lt h)).symm
  · rw [if_neg h]
    exact (min_eq_left (le_of_not_lt h)).symm

lemma minimaxNPLoop_val_mono_max {board : Board} {depth max_depth : Nat}
    {player pp : Nat} :
    ∀ (cols : List Nat) (value : XInt) (column : Option Nat)
      (hcols : ∀ c ∈ cols, c < COLUMNS ∧ -1 < lowest_row board c) (hpp : pp ≠ EMPTY),
      value ≤ (minimaxNPLoop board depth max_depth cols value column true player pp hcols hpp).2 := by
  intro cols
  induction cols with
  | nil =>
    intro value column hcols hpp
    rw [minimaxNPLoop_nil]
  | cons col rest ih =>
    intro value column hcols hpp
    have hrest : ∀ c ∈ rest, c < COLUMNS ∧ -1 < lowest_row board c :=
      fun c hc => hcols c (List.mem_cons_of_mem _ hc)
    rw [minimaxNPLoop_cons_max hrest, ite_lt_eq_max]
    exact le_trans (le_max_left _ _) (ih _ _ hrest hpp)

lemma minimaxNPLoop_val_mono_min {board : Board} {depth max_depth : Nat}
    {player pp : Nat} :
    ∀ (cols : List Nat) (value : XInt) (column : Option Nat)
      (hcols : ∀ c ∈ cols, c < COLUMNS ∧ -1 < lowest_row board c) (hpp : pp ≠ EMPTY),
      (minimaxNPLoop board depth max_depth cols value column false player pp hcols hpp).2 ≤ value := by
  intro cols
  induction cols with
  | nil =>
    intro value column hcols hpp
    rw [minimaxNPLoop_nil]
  | cons col rest ih =>
    intro value column hcols hpp
    have hrest : ∀ c ∈ rest, c < COLUMNS ∧ -1 < lowest_row board c :=
      fun c hc => hcols c (List.mem_cons_of_mem _ hc)
    rw [minimaxNPLoop_cons_min hrest, ite_lt_eq_min]
    exact le_trans (ih _ _ hrest hpp) (min_le_left _ _)

/-! ### Window soundness of the pruned loop (Knuth-Moore style invariant) -/

lemma loopA_max {choice : List Nat → Nat} {board : Board} {depth max_depth : Nat}
    {player pp : Nat} {alpha0 beta : XInt} :
    ∀ (cols : List Nat) (value w : XInt) (column colNP : Option Nat) (alpha : XInt)
      (hcols : ∀ c ∈ cols, c < COLUMNS ∧ -1 < lowest_row board c) (hpp : pp ≠ EMPTY),
      (∀ c ∈ cols, ∀ a : XInt, a < beta →
        ((childNPV board depth max_depth true player pp c ≤ a →
          childPV choice board depth max_depth a beta true player pp c ≤ a) ∧
         (beta ≤ childNPV board depth max_depth true player pp c →
          beta ≤ childPV choice board depth max_depth a beta true player pp c) ∧
         (a < childNPV board depth max_depth true player pp c →
          childNPV board depth max_depth true player pp c < beta →
          childPV choice board depth max_depth a beta true player pp c =
            childNPV board depth max_depth true player pp c))) →
      alpha = max alpha0 value →
      value ≤ max alpha0 w →
      (alpha0 < w → value = w) →
      alpha < beta →
      alpha0 < beta →
      (((minimaxNPLoop board depth max_depth cols w colNP true player pp hcols hpp).2 ≤ alpha0 →
        (minimaxLoop choice board depth max_depth cols value column alpha beta true player pp
          hcols hpp).2 ≤ alpha0) ∧
       (beta ≤ (minimaxNPLoop board depth max_depth cols w colNP true player pp hcols hpp).2 →
        beta ≤ (minimaxLoop choice board depth max_depth cols value column alpha beta true player pp
          hcols hpp).2) ∧
       (alpha0 < (minimaxNPLoop board depth max_depth cols w colNP true player pp hcols hpp).2 →
        (minimaxNPLoop board depth max_depth cols w colNP true player pp hcols hpp).2 < beta →
        (minimaxLoop choice board depth max_depth cols value column alpha beta true player pp
          hcols hpp).2 =
          (minimaxNPLoop board depth max_depth cols w colNP true player pp hcols hpp).2)) := by
  intro cols
  induction cols with
  | nil =>
    intro value w column colNP alpha hcols hpp hchild hα hvw hsync hαβ hα0β
    rw [minimaxLoop_nil, minimaxNPLoop_nil]
    refine ⟨?_, ?_, ?_⟩
    · intro hw
      exact le_trans hvw (max_le le_rfl hw)
    · intro hw
      have : value = w := hsync (lt_of_lt_of_le hα0β hw)
      rw [this]
      exact hw
    · intro h1 _
      exact hsync h1
  | cons col rest ih =>
    intro value w column colNP alpha hcols hpp hchild hα hvw hsync hαβ hα0β
    have hrest : ∀ c ∈ rest, c < COLUMNS ∧ -1 < lowest_row board c :=
      fun c hc => hcols c (List.mem_cons_of_mem _ hc)
    have hchildr : ∀ c ∈ rest, ∀ a : XInt, a < beta →
        ((childNPV board depth max_depth true player pp c ≤ a →
          childPV choice board depth max_depth a beta true player pp c ≤ a) ∧
         (beta ≤ childNPV board depth max_depth true player pp c →
          beta ≤ childPV choice board depth max_depth a beta true player pp c) ∧
         (a < childNPV board depth max_depth true player pp c →
          childNPV board depth max_depth true player pp c < beta →
          childPV choice board depth max_depth a beta true player pp c =
            childNPV board depth max_depth true player pp c)) :=
      fun c hc => hchild c (List.mem_cons_of_mem _ hc)
    have hcprop := hchild col (List.mem_cons_self _ _) alpha hαβ
    rw [minimaxLoop_cons_max hrest, minimaxNPLoop_cons_max hrest,
      ite_lt_eq_max, ite_lt_eq_max]
    set t := childNPV board depth max_depth true player pp col with ht_def
    set s := childPV choice board depth max_depth alpha beta true player pp col with hs_def
    have hvα : value ≤ alpha := by
      rw [hα]
      exact le_max_right _ _
    have hα0α : alpha0 ≤ alpha := by
      rw [hα]
      exact le_max_left _ _
    rcases lt_or_le t beta with htβ | hβt
    · -- no pruning break at this step
      rcases le_or_lt t alpha with htα | hαt
      · -- the child is dominated: neither side updates beyond alpha
        have hsα : s ≤ alpha := hcprop.1 htα
        have hval2 : max value s ≤ alpha := max_le hvα hsα
        have halpha2 : max alpha (max value s) = alpha := max_eq_left hval2
        have hbr : ¬ beta ≤ max alpha (max value s) := by
          rw [halpha2]
          exact not_le_of_lt hαβ
        rw [if_neg hbr, halpha2]
        -- re-establish the invariant for the tail
        refine ih (max value s) (max w t) _ _ alpha hrest hpp hchildr ?_ ?_ ?_ hαβ hα0β
        · -- alpha = max alpha0 (max value s)
          refine le_antisymm ?_ ?_
          · rw [hα]
            exact max_le (le_max_left _ _) ((le_max_left _ _).trans (le_max_right _ _))
          · exact max_le (le_trans hα0α le_rfl) hval2
        · -- max value s ≤ max alpha0 (max w t)
          have h1 : max value s ≤ alpha := hval2
          have h2 : alpha = max alpha0 value := hα
          have h3 : value ≤ max alpha0 w := hvw
          have : alpha ≤ max alpha0 w := by
            rw [h2]
            exact max_le (le_max_left _ _) h3
          refine le_trans h1 (le_trans this ?_)
          exact max_le_max le_rfl (le_max_left _ _)
        · -- sync on the tail
          intro hw2
          rcases le_or_lt w alpha0 with hwα0 | hα0w
          · -- then everything is at or below alpha0, contradiction
            exfalso
            have hvα0 : value ≤ alpha0 := le_trans hvw (max_le le_rfl hwα0)
            have hαα0 : alpha = alpha0 := by
              rw [hα]
              exact max_eq_left hvα0
            have htα0 : t ≤ alpha0 := by
              rw [← hαα0]
              exact htα
            have : max w t ≤ alpha0 := max_le hwα0 htα0
            exact absurd hw2 (not_lt_of_le this)
          · have hvweq : value = w := hsync hα0w
            have hαw : alpha = w := by
              rw [hα, hvweq]
              exact max_eq_right (le_of_lt hα0w)
            have hsw : s ≤ w := by
              rw [← hαw]
              exact hsα
            have htw : t ≤ w := by
              rw [← hαw]
              exact htα
            have hw2eq : max w t = w := max_eq_left htw
            rw [hw2eq, hvweq, max_eq_left hsw]
      · -- strict improvement at this column on both sides
        have hst : s = t := hcprop.2.2 hαt htβ
        have hvs : value < s := by
          rw [hst]
          exact lt_of_le_of_lt hvα hαt
        have hα0t : alpha0 < t := lt_of_le_of_lt hα0α hαt
        have hwt : w < t := by
          rcases le_or_lt w alpha0 with hwα0 | hα0w
          · exact lt_of_le_of_lt hwα0 hα0t
          · rw [← hsync hα0w]
            rw [hst] at hvs
            exact hvs
        have hv2 : max value s = t := by
          rw [hst]
          exact max_eq_right (le_of_lt (lt_of_le_of_lt hvα hαt))
        have hw2 : max w t = t := max_eq_right (le_of_lt hwt)
        have halpha2 : max alpha (max value s) = t := by
          rw [hv2]
          exact max_eq_right (le_of_lt hαt)
        have hbr : ¬ beta ≤ max alpha (max value s) := by
          rw [halpha2]
          exact not_le_of_lt htβ
        rw [if_neg hbr, halpha2, hv2, hw2]
        refine ih t t _ _ t hrest hpp hchildr ?_ ?_ ?_ htβ hα0β
        · exact (max_eq_right (le_of_lt hα0t)).symm
        · exact le_max_right _ _
        · intro _
          rfl
    · -- beta ≤ t: pruning break occurs at this step
      have hsβ : beta ≤ s := hcprop.2.1 hβt
      have hvs : value < s := lt_of_le_of_lt hvα (lt_of_lt_of_le hαβ hsβ)
      have hv2 : max value s = s := max_eq_right (le_of_lt hvs)
      have hbr : beta ≤ max alpha (max value s) := by
        rw [hv2]
        exact le_trans hsβ (le_max_right _ _)
      rw [if_pos hbr]
      have hw2β : beta ≤ max w t := le_trans hβt (le_max_right _ _)
      have hWβ : beta ≤ (minimaxNPLoop board depth max_depth rest (max w t)
          (if w < t then some col else colNP) true player pp hrest hpp).2 :=
        le_trans hw2β (minimaxNPLoop_val_mono_max rest _ _ hrest hpp)
      refine ⟨?_, ?_, ?_⟩
      · intro hW
        exact absurd (lt_of_lt_of_le hα0β (le_trans hWβ hW)) (lt_irrefl _)
      · intro _
        have : (column, max value s).2 = max value s := rfl
        rw [this, hv2]
        exact hsβ
      · intro _ hWβ'
        exact absurd (lt_of_lt_of_le hWβ' hWβ) (lt_irrefl _)

lemma loopA_min {choice : List Nat → Nat} {board : Board} {depth max_depth : Nat}
    {player pp : Nat} {beta0 alpha : XInt} :
    ∀ (cols : List Nat) (value w : XInt) (column colNP : Option Nat) (beta : XInt)
      (hcols : ∀ c ∈ cols, c < COLUMNS ∧ -1 < lowest_row board c) (hpp : pp ≠ EMPTY),
      (∀ c ∈ cols, ∀ b : XInt, alpha < b →
        ((childNPV board depth max_depth false player pp c ≤ alpha →
          childPV choice board depth max_depth alpha b false player pp c ≤ alpha) ∧
         (b ≤ childNPV board depth max_depth false player pp c →
          b ≤ childPV choice board depth max_depth alpha b false player pp c) ∧
         (alpha < childNPV board depth max_depth false player pp c →
          childNPV board depth max_depth false player pp c < b →
          childPV choice board depth max_depth alpha b false player pp c =
            childNPV board depth max_depth false player pp c))) →
      beta = min beta0 value →
      min beta0 w ≤ value →
      (w < beta0 → value = w) →
      alpha < beta →
      alpha < beta0 →
      (((minimaxNPLoop board depth max_depth cols w colNP false player pp hcols hpp).2 ≤ alpha →
        (minimaxLoop choice board depth max_depth cols value column alpha beta false player pp
          hcols hpp).2 ≤ alpha) ∧
       (beta0 ≤ (minimaxNPLoop board depth max_depth cols w colNP false player pp hcols hpp).2 →
        beta0 ≤ (minimaxLoop choice board depth max_depth cols value column alpha beta false player pp
          hcols hpp).2) ∧
       (alpha < (minimaxNPLoop board depth max_depth cols w colNP false player pp hcols hpp).2 →
        (minimaxNPLoop board depth max_depth cols w colNP false player pp hcols hpp).2 < beta0 →
        (minimaxLoop choice board depth max_depth cols value column alpha beta false player pp
          hcols hpp).2 =
          (minimaxNPLoop board depth max_depth cols w colNP false player pp hcols hpp).2)) := by
  intro cols
  induction cols with
  | nil =>
    intro value w column colNP beta hcols hpp hchild hβ hvw hsync hαβ hαβ0
    rw [minimaxLoop_nil, minimaxNPLoop_nil]
    refine ⟨?_, ?_, ?_⟩
    · intro hw
      have : value = w := hsync (lt_of_le_of_lt hw hαβ0)
      rw [this]
      exact hw
    · intro hw
      exact le_trans (le_min le_rfl hw) hvw
    · intro _ h2
      exact hsync h2
  | cons col rest ih =>
    intro value w column colNP beta hcols hpp hchild hβ hvw hsync hαβ hαβ0
    have hrest : ∀ c ∈ rest, c < COLUMNS ∧ -1 < lowest_row board c :=
      fun c hc => hcols c (List.mem_cons_of_mem _ hc)
    have hchildr : ∀ c ∈ rest, ∀ b : XInt, alpha < b →
        ((childNPV board depth max_depth false player pp c ≤ alpha →
          childPV choice board depth max_depth alpha b false player pp c ≤ alpha) ∧
         (b ≤ childNPV board depth max_depth false player pp c →
          b ≤ childPV choice board depth max_depth alpha b false player pp c) ∧
         (alpha < childNPV board depth max_depth false player pp c →
          childNPV board depth max_depth false player pp c < b →
          childPV choice board depth max_depth alpha b false player pp c =
            childNPV board depth max_depth false player pp c)) :=
      fun c hc => hchild c (List.mem_cons_of_mem _ hc)
    have hcprop := hchild col (List.mem_cons_self _ _) beta hαβ
    rw [minimaxLoop_cons_min hrest, minimaxNPLoop_cons_min hrest,
      ite_lt_eq_min, ite_lt_eq_min]
    set t := childNPV board depth max_depth false player pp col with ht_def
    set s := childPV choice board depth max_depth alpha beta false player pp col with hs_def
    have hβv : beta ≤ value := by
      rw [hβ]
      exact min_le_right _ _
    have hββ0 : beta ≤ beta0 := by
      rw [hβ]
      exact min_le_left _ _
    rcases le_or_lt t alpha with htα | hαt
    · -- t ≤ alpha: pruning break occurs at this step
      have hsα : s ≤ alpha := hcprop.1 htα
      have hvs : s < value := lt_of_le_of_lt hsα (lt_of_lt_of_le hαβ hβv)
      have hv2 : min value s = s := min_eq_right (le_of_lt hvs)
      have hbr : min beta (min value s) ≤ alpha := by
        rw [hv2]
        exact le_trans (min_le_right _ _) hsα
      rw [if_pos hbr]
      have hw2α : min w t ≤ alpha := le_trans (min_le_right _ _) htα
      have hWα : (minimaxNPLoop board depth max_depth rest (min w t)
          (if t < w then some col else colNP) false player pp hrest hpp).2 ≤ alpha :=
        le_trans (minimaxNPLoop_val_mono_min rest _ _ hrest hpp) hw2α
      refine ⟨?_, ?_, ?_⟩
      · intro _
        have : (column, min value s).2 = min value s := rfl
        rw [this, hv2]
        exact hsα
      · intro hW
        exact absurd (lt_of_le_of_lt (le_trans hW hWα) hαβ0) (lt_irrefl _)
      · intro hW _
        exact absurd (lt_of_lt_of_le hW hWα) (lt_irrefl _)
    · rcases lt_or_le t beta with htβ | hβt
      · -- alpha < t < beta: strict improvement on both sides
        have hst : s = t := hcprop.2.2 hαt htβ
        have htβ0 : t < beta0 := lt_of_lt_of_le htβ hββ0
        have hvt : t < value := lt_of_lt_of_le htβ hβv
        have hv2 : min value s = t := by
          rw [hst]
          exact min_eq_right (le_of_lt hvt)
        have hwt : t < w := by
          rcases le_or_lt beta0 w with hβ0w | hwβ0
          · exact lt_of_lt_of_le htβ0 hβ0w
          · rw [← hsync hwβ0]
            exact hvt
        have hw2 : min w t = t := min_eq_right (le_of_lt hwt)
        have hbeta2 : min beta (min value s) = t := by
          rw [hv2]
          exact min_eq_right (le_of_lt htβ)
        have hbr : ¬ (min beta (min value s) ≤ alpha) := by
          rw [hbeta2]
          exact not_le_of_lt hαt
        rw [if_neg hbr, hbeta2, hv2, hw2]
        refine ih t t _ _ t hrest hpp hchildr ?_ ?_ ?_ hαt hαβ0
        · exact (min_eq_right (le_of_lt htβ0)).symm
        · exact min_le_right _ _
        · intro _
          rfl
      · -- beta ≤ t: dominated child, neither break nor effective update
        have hsβ : beta ≤ s := hcprop.2.1 hβt
        have hv2β : beta ≤ min value s := le_min hβv hsβ
        have hbeta2 : min beta (min value s) = beta := min_eq_left hv2β
        have hbr : ¬ (min beta (min value s) ≤ alpha) := by
          rw [hbeta2]
          exact not_le_of_lt hαβ
        rw [if_neg hbr, hbeta2]
        refine ih (min value s) (min w t) _ _ beta hrest hpp hchildr ?_ ?_ ?_ hαβ hαβ0
        · refine le_antisymm (le_min hββ0 hv2β) ?_
          rw [hβ]
          exact min_le_min le_rfl (min_le_left _ _)
        · rcases le_or_lt beta0 w with hβ0w | hwβ0
          · have hβ0v : beta0 ≤ value := by
              have h' := hvw
              rw [min_eq_left hβ0w] at h'
              exact h'
            have hββ0' : beta = beta0 := by
              rw [hβ]
              exact min_eq_left hβ0v
            refine le_trans (min_le_left _ _) ?_
            rw [← hββ0']
            exact hv2β
          · have hvweq : value = w := hsync hwβ0
            have hβw : beta = w := by
              rw [hβ, hvweq]
              exact min_eq_right (le_of_lt hwβ0)
            have hsw : w ≤ s := by
              rw [← hβw]
              exact hsβ
            have htw : w ≤ t := by
              rw [← hβw]
              exact hβt
            have : min value s = w := by
              rw [hvweq]
              exact min_eq_left hsw
            rw [this]
            exact le_trans (min_le_right _ _) (min_le_left _ _)
        · intro hw2
          rcases le_or_lt beta0 w with hβ0w | hwβ0
          · exfalso
            have hβ0v : beta0 ≤ value := by
              have := hvw
              rw [min_eq_left hβ0w] at this
              exact this
            have hββ0' : beta = beta0 := by
              rw [hβ]
              exact min_eq_left hβ0v
            have htβ0 : beta0 ≤ t := by
              rw [← hββ0']
              exact hβt
            have : beta0 ≤ min w t := le_min hβ0w htβ0
            exact absurd hw2 (not_lt_of_le this)
          · have hvweq : value = w := hsync hwβ0
            have hβw : beta = w := by
              rw [hβ, hvweq]
              exact min_eq_right (le_of_lt hwβ0)
            have hsw : w ≤ s := by
              rw [← hβw]
              exact hsβ
            have htw : w ≤ t := by
              rw [← hβw]
              exact hβt
            rw [hvweq, min_eq_left hsw, min_eq_left htw]

lemma minimax_leaf_eq {choice : List Nat → Nat} {board : Board}
    {depth max_depth : Nat} {alpha beta : XInt} {maxPlayer : Bool} {player : Nat}
    (h : is_terminal_board board = true ∨ depth = max_depth) :
    minimax choice board depth max_depth alpha beta maxPlayer player =
      minimaxNP board depth max_depth maxPlayer player := by
  by_cases hterm : is_terminal_board board = true
  · by_cases hw : check_win board player = true
    · rw [minimax_of_win hw, minimaxNP_of_win hw]
    · by_cases hl : check_win board ((player + 1) % 2) = true
      · rw [minimax_of_opp_win (bool_not_true hw) hl,
          minimaxNP_of_opp_win (bool_not_true hw) hl]
      · rw [minimax_of_draw hterm (bool_not_true hw) (bool_not_true hl),
          minimaxNP_of_draw hterm (bool_not_true hw) (bool_not_true hl)]
  · have hd : depth = max_depth := by tauto
    rw [minimax_of_depth (bool_not_true hterm) hd, minimaxNP_of_depth (bool_not_true hterm) hd]

lemma minimax_window_sound :
    ∀ (board : Board) (choice : List Nat → Nat) (depth max_depth : Nat)
      (alpha beta : XInt) (maxPlayer : Bool) (player : Nat), alpha < beta →
      (((minimaxNP board depth max_depth maxPlayer player).2 ≤ alpha →
        (minimax choice board depth max_depth alpha beta maxPlayer player).2 ≤ alpha) ∧
       (beta ≤ (minimaxNP board depth max_depth maxPlayer player).2 →
        beta ≤ (minimax choice board depth max_depth alpha beta maxPlayer player).2) ∧
       (alpha < (minimaxNP board depth max_depth maxPlayer player).2 →
        (minimaxNP board depth max_depth maxPlayer player).2 < beta →
        (minimax choice board depth max_depth alpha beta maxPlayer player).2 =
          (minimaxNP board depth max_depth maxPlayer player).2)) := by
  suffices H : ∀ N (board : Board), countEmpty board ≤ N →
      ∀ (choice : List Nat → Nat) (depth max_depth : Nat) (alpha beta : XInt)
        (maxPlayer : Bool) (player : Nat), alpha < beta →
        (((minimaxNP board depth max_depth maxPlayer player).2 ≤ alpha →
          (minimax choice board depth max_depth alpha beta maxPlayer player).2 ≤ alpha) ∧
         (beta ≤ (minimaxNP board depth max_depth maxPlayer player).2 →
          beta ≤ (minimax choice board depth max_depth alpha beta maxPlayer player).2) ∧
         (alpha < (minimaxNP board depth max_depth maxPlayer player).2 →
          (minimaxNP board depth max_depth maxPlayer player).2 < beta →
          (minimax choice board depth max_depth alpha beta maxPlayer player).2 =
            (minimaxNP board depth max_depth maxPlayer player).2)) by
    intro board choice depth max_depth alpha beta maxPlayer player hab
    exact H (countEmpty board) board le_rfl choice depth max_depth alpha beta maxPlayer player hab
  intro N
  induction N with
  | zero =>
    intro board hb choice depth max_depth alpha beta maxPlayer player hab
    have heq : (minimax choice board depth max_depth alpha beta maxPlayer player).2 =
        (minimaxNP board depth max_depth maxPlayer player).2 := by
      rw [minimax_leaf_eq (Or.inl (terminal_of_countEmpty_zero (by omega)))]
    refine ⟨fun h => ?_, fun h => ?_, fun _ _ => heq⟩
    · rw [heq]
      exact h
    · rw [heq]
      exact h
  | succ N ih =>
    intro board hb choice depth max_depth alpha beta maxPlayer player hab
    by_cases hleaf : is_terminal_board board = true ∨ depth = max_depth
    · have heq : (minimax choice board depth max_depth alpha beta maxPlayer player).2 =
          (minimaxNP board depth max_depth maxPlayer player).2 := by
        rw [minimax_leaf_eq hleaf]
      refine ⟨fun h => ?_, fun h => ?_, fun _ _ => heq⟩
      · rw [heq]
        exact h
      · rw [heq]
        exact h
    · push_neg at hleaf
      obtain ⟨hterm, hd⟩ := hleaf
      have hterm' := bool_not_true hterm
      cases maxPlayer with
      | true =>
        rw [minimax_to_loop_max hterm' hd, minimaxNP_to_loop_max hterm' hd]
        refine loopA_max _ _ _ _ _ _ _ _ ?_ (max_eq_left (XInt.negInf_le _)).symm
          (XInt.negInf_le _) (fun h => absurd h (XInt.not_lt_negInf _)) hab hab
        intro c hc a ha
        have hlt := countEmpty_child_lt hc (piece_ne_empty player)
        exact ih _ (by omega) choice (depth + 1) max_depth a beta false player ha
      | false =>
        rw [minimax_to_loop_min hterm' hd, minimaxNP_to_loop_min hterm' hd]
        refine loopA_min _ _ _ _ _ _ _ _ ?_ (min_eq_left (XInt.le_posInf _)).symm
          (by rw [min_eq_left (XInt.le_posInf _)]; exact XInt.le_posInf _)
          (fun h => absurd h (XInt.not_posInf_lt _)) hab hab
        intro c hc b hb2
        have hlt := countEmpty_child_lt hc (opp_piece_ne_empty player)
        exact ih _ (by omega) choice (depth + 1) max_depth alpha b true player hb2

/-! ### Root equivalence of the pruned and unpruned searches -/

lemma not_posInf_le_of_ne {v : XInt} (h : v ≠ XInt.posInf) : ¬ XInt.posInf ≤ v :=
  fun hle => h (le_antisymm (XInt.le_posInf _) hle)

lemma not_le_negInf_of_ne {v : XInt} (h : v ≠ XInt.negInf) : ¬ v ≤ XInt.negInf :=
  fun hle => h (le_antisymm hle (XInt.negInf_le _))

lemma loopB_max {choice : List Nat → Nat} {board : Board} {depth max_depth : Nat}
    {player pp : Nat} :
    ∀ (cols : List Nat) (value : XInt) (column colNP : Option Nat)
      (hcols : ∀ c ∈ cols, c < COLUMNS ∧ -1 < lowest_row board c) (hpp : pp ≠ EMPTY),
      value ≠ XInt.posInf →
      (column = colNP ∨ (value = XInt.negInf ∧ cols ≠ [])) →
      minimaxLoop choice board depth max_depth cols value column value XInt.posInf true player pp
        hcols hpp =
        minimaxNPLoop board depth max_depth cols value colNP true player pp hcols hpp := by
  intro cols
  induction cols with
  | nil =>
    intro value column colNP hcols hpp hne hdisj
    rw [minimaxLoop_nil, minimaxNPLoop_nil]
    rcases hdisj with heq | ⟨_, hnil⟩
    · rw [heq]
    · exact absurd rfl hnil
  | cons col rest ih =>
    intro value column colNP hcols hpp hne hdisj
    have hrest : ∀ c ∈ rest, c < COLUMNS ∧ -1 < lowest_row board c :=
      fun c hc => hcols c (List.mem_cons_of_mem _ hc)
    obtain ⟨n, hn⟩ := minimaxNP_val_fin (make_move board pp (lowest_row board col).toNat col)
      (depth + 1) max_depth (!true) player
    have hprops := minimax_window_sound
      (make_move board pp (lowest_row board col).toNat col) choice (depth + 1) max_depth
      value XInt.posInf false player (XInt.lt_posInf_of_ne hne)
    rw [minimaxLoop_cons_max hrest, minimaxNPLoop_cons_max hrest]
    set s := childPV choice board depth max_depth value XInt.posInf true player pp col with hs_def
    set t := childNPV board depth max_depth true player pp col with ht_def
    have ht_fin : t = XInt.fin n := hn
    rcases le_or_lt t value with htv | hvt
    · have hsv : s ≤ value := hprops.1 htv
      simp only [if_neg (not_lt_of_le hsv), if_neg (not_lt_of_le htv), max_self,
        if_neg (not_posInf_le_of_ne hne)]
      refine ih value column colNP hrest hpp hne (Or.inl ?_)
      rcases hdisj with heq | ⟨hv, _⟩
      · exact heq
      · rw [hv, ht_fin] at htv
        exact absurd htv (XInt.not_fin_le_negInf n)
    · have ht_lt : t < XInt.posInf := by
        rw [ht_fin]
        exact XInt.fin_lt_posInf n
      have hst : s = t := hprops.2.2 hvt ht_lt
      have hvs : value < s := by
        rw [hst]
        exact hvt
      have ht_ne : t ≠ XInt.posInf := by
        rw [ht_fin]
        intro h
        exact XInt.noConfusion h
      simp only [if_pos hvs, if_pos hvt, hst, max_eq_right (le_of_lt hvt),
        if_neg (not_posInf_le_of_ne ht_ne)]
      exact ih t (some col) (some col) hrest hpp ht_ne (Or.inl rfl)

lemma loopB_min {choice : List Nat → Nat} {board : Board} {depth max_depth : Nat}
    {player pp : Nat} :
    ∀ (cols : List Nat) (value : XInt) (column colNP : Option Nat)
      (hcols : ∀ c ∈ cols, c < COLUMNS ∧ -1 < lowest_row board c) (hpp : pp ≠ EMPTY),
      value ≠ XInt.negInf →
      (column = colNP ∨ (value = XInt.posInf ∧ cols ≠ [])) →
      minimaxLoop choice board depth max_depth cols value column XInt.negInf value false player pp
        hcols hpp =
        minimaxNPLoop board depth max_depth cols value colNP false player pp hcols hpp := by
  intro cols
  induction cols with
  | nil =>
    intro value column colNP hcols hpp hne hdisj
    rw [minimaxLoop_nil, minimaxNPLoop_nil]
    rcases hdisj with heq | ⟨_, hnil⟩
    · rw [heq]
    · exact absurd rfl hnil
  | cons col rest ih =>
    intro value column colNP hcols hpp hne hdisj
    have hrest : ∀ c ∈ rest, c < COLUMNS ∧ -1 < lowest_row board c :=
      fun c hc => hcols c (List.mem_cons_of_mem _ hc)
    obtain ⟨n, hn⟩ := minimaxNP_val_fin (make_move board pp (lowest_row board col).toNat col)
      (depth + 1) max_depth (!false) player
    have hprops := minimax_window_sound
      (make_move board pp (lowest_row board col).toNat col) choice (depth + 1) max_depth
      XInt.negInf value true player (XInt.negInf_lt_of_ne hne)
    rw [minimaxLoop_cons_min hrest, minimaxNPLoop_cons_min hrest]
    set s := childPV choice board depth max_depth XInt.negInf value false player pp col with hs_def
    set t := childNPV board depth max_depth false player pp col with ht_def
    have ht_fin : t = XInt.fin n := hn
    rcases le_or_lt value t with hvt | htv
    · have hsv : value ≤ s := hprops.2.1 hvt
      simp only [if_neg (not_lt_of_le hsv), if_neg (not_lt_of_le hvt), min_self,
        if_neg (not_le_negInf_of_ne hne)]
      refine ih value column colNP hrest hpp hne (Or.inl ?_)
      rcases hdisj with heq | ⟨hv, _⟩
      · exact heq
      · rw [hv, ht_fin] at hvt
        exact absurd hvt (XInt.not_posInf_le_fin n)
    · have ht_gt : XInt.negInf < t := by
        rw [ht_fin]
        exact XInt.negInf_lt_fin n
      have hst : s = t := hprops.2.2 ht_gt htv
      have hsv : s < value := by
        rw [hst]
        exact htv
      have ht_ne : t ≠ XInt.negInf := by
        rw [ht_fin]
        intro h
        exact XInt.noConfusion h
      simp only [if_pos hsv, if_pos htv, hst, min_eq_right (le_of_lt htv),
        if_neg (not_le_negInf_of_ne ht_ne)]
      exact ih t (some col) (some col) hrest hpp ht_ne (Or.inl rfl)

/-- The pruned search started from the full window equals the unpruned
exhaustive minimax: same column and same value, for every board, depth,
depth limit, node type and reference side. -/
lemma minimax_eq_minimaxNP (choice : List Nat → Nat) (board : Board)
    (depth max_depth : Nat) (maxPlayer : Bool) (player : Nat) :
    minimax choice board depth max_depth XInt.negInf XInt.posInf maxPlayer player =
      minimaxNP board depth max_depth maxPlayer player := by
  by_cases hleaf : is_terminal_board board = true ∨ depth = max_depth
  · exact minimax_leaf_eq hleaf
  · push_neg at hleaf
    obtain ⟨hterm, hd⟩ := hleaf
    have hterm' := bool_not_true hterm
    cases maxPlayer with
    | true =>
      rw [minimax_to_loop_max hterm' hd, minimaxNP_to_loop_max hterm' hd]
      exact loopB_max _ _ _ _ _ _ (fun h => XInt.noConfusion h)
        (Or.inr ⟨rfl, valid_ne_nil_of_not_terminal hterm'⟩)
    | false =>
      rw [minimax_to_loop_min hterm' hd, minimaxNP_to_loop_min hterm' hd]
      exact loopB_min _ _ _ _ _ _ (fun h => XInt.noConfusion h)
        (Or.inr ⟨rfl, valid_ne_nil_of_not_terminal hterm'⟩)

/-! ### Independence from the random initial column choice -/

lemma loopI {c1 c2 : List Nat → Nat} {board : Board} {depth max_depth : Nat}
    {player pp : Nat} :
    ∀ (cols : List Nat) (value : XInt) (col1 col2 : Option Nat) (alpha beta : XInt)
      (maxP : Bool)
      (hcols : ∀ c ∈ cols, c < COLUMNS ∧ -1 < lowest_row board c) (hpp : pp ≠ EMPTY),
      (∀ c ∈ cols, ∀ (a b : XInt) (mp : Bool),
        minimax c1 (make_move board pp (lowest_row board c).toNat c)
          (depth + 1) max_depth a b mp player =
        minimax c2 (make_move board pp (lowest_row board c).toNat c)
          (depth + 1) max_depth a b mp player) →
      (col1 = col2 ∨ (value = (if maxP then XInt.negInf else XInt.posInf) ∧ cols ≠ [])) →
      minimaxLoop c1 board depth max_depth cols value col1 alpha beta maxP player pp hcols hpp =
        minimaxLoop c2 board depth max_depth cols value col2 alpha beta maxP player pp hcols hpp := by
  intro cols
  induction cols with
  | nil =>
    intro value col1 col2 alpha beta maxP hcols hpp hchild hdisj
    rw [minimaxLoop_nil, minimaxLoop_nil]
    rcases hdisj with heq | ⟨_, hnil⟩
    · rw [heq]
    · exact absurd rfl hnil
  | cons col rest ih =>
    intro value col1 col2 alpha beta maxP hcols hpp hchild hdisj
    have hrest : ∀ c ∈ rest, c < COLUMNS ∧ -1 < lowest_row board c :=
      fun c hc => hcols c (List.mem_cons_of_mem _ hc)
    have hchildr : ∀ c ∈ rest, ∀ (a b : XInt) (mp : Bool),
        minimax c1 (make_move board pp (lowest_row board c).toNat c)
          (depth + 1) max_depth a b mp player =
        minimax c2 (make_move board pp (lowest_row board c).toNat c)
          (depth + 1) max_depth a b mp player :=
      fun c hc => hchild c (List.mem_cons_of_mem _ hc)
    cases maxP with
    | true =>
      have hs12 : childPV c1 board depth max_depth alpha beta true player pp col =
          childPV c2 board depth max_depth alpha beta true player pp col :=
        congrArg Prod.snd (hchild col (List.mem_cons_self _ _) alpha beta (!true))
      obtain ⟨m, hm⟩ := minimax_val_fin c1
        (make_move board pp (lowest_row board col).toNat col)
        (depth + 1) max_depth alpha beta (!true) player
      rw [minimaxLoop_cons_max hrest, minimaxLoop_cons_max hrest, ← hs12]
      by_cases hlt : value < childPV c1 board depth max_depth alpha beta true player pp col
      · simp only [if_pos hlt]
        by_cases hbr : beta ≤ max alpha
            (childPV c1 board depth max_depth alpha beta true player pp col)
        · rw [if_pos hbr, if_pos hbr]
        · rw [if_neg hbr, if_neg hbr]
          exact ih _ _ _ _ _ _ hrest hpp hchildr (Or.inl rfl)
      · simp only [if_neg hlt]
        have hcoleq : col1 = col2 := by
          rcases hdisj with heq | ⟨hv, _⟩
          · exact heq
          · exfalso
            simp at hv
            rw [hv] at hlt
            have : childPV c1 board depth max_depth alpha beta true player pp col =
                XInt.fin m := hm
            rw [this] at hlt
            exact hlt (XInt.negInf_lt_fin m)
        rw [hcoleq]
        by_cases hbr : beta ≤ max alpha value
        · rw [if_pos hbr, if_pos hbr]
        · rw [if_neg hbr, if_neg hbr]
          exact ih _ _ _ _ _ _ hrest hpp hchildr (Or.inl rfl)
    | false =>
      have hs12 : childPV c1 board depth max_depth alpha beta false player pp col =
          childPV c2 board depth max_depth alpha beta false player pp col :=
        congrArg Prod.snd (hchild col (List.mem_cons_self _ _) alpha beta (!false))
      obtain ⟨m, hm⟩ := minimax_val_fin c1
        (make_move board pp (lowest_row board col).toNat col)
        (depth + 1) max_depth alpha beta (!false) player
      rw [minimaxLoop_cons_min hrest, minimaxLoop_cons_min hrest, ← hs12]
      by_cases hlt : childPV c1 board depth max_depth alpha beta false player pp col < value
      · simp only [if_pos hlt]
        by_cases hbr : min beta
            (childPV c1 board depth max_depth alpha beta false player pp col) ≤ alpha
        · rw [if_pos hbr, if_pos hbr]
        · rw [if_neg hbr, if_neg hbr]
          exact ih _ _ _ _ _ _ hrest hpp hchildr (Or.inl rfl)
      · simp only [if_neg hlt]
        have hcoleq : col1 = col2 := by
          rcases hdisj with heq | ⟨hv, _⟩
          · exact heq
          · exfalso
            simp at hv
            rw [hv] at hlt
            have : childPV c1 board depth max_depth alpha beta false player pp col =
                XInt.fin m := hm
            rw [this] at hlt
            exact hlt (XInt.fin_lt_posInf m)
        rw [hcoleq]
        by_cases hbr : min beta value ≤ alpha
        · rw [if_pos hbr, if_pos hbr]
        · rw [if_neg hbr, if_neg hbr]
          exact ih _ _ _ _ _ _ hrest hpp hchildr (Or.inl rfl)

/-- The result of `minimax` does not depend on the `random.choice` used for
the initial column of each loop: the first loop iteration always overwrites
the initial column. -/
lemma minimax_choice_indep :
    ∀ (c1 c2 : List Nat → Nat) (board : Board) (depth max_depth : Nat)
      (alpha beta : XInt) (maxPlayer : Bool) (player : Nat),
      minimax c1 board depth max_depth alpha beta maxPlayer player =
        minimax c2 board depth max_depth alpha beta maxPlayer player := by
  suffices H : ∀ N (board : Board), countEmpty board ≤ N →
      ∀ (c1 c2 : List Nat → Nat) (depth max_depth : Nat) (alpha beta : XInt)
        (maxPlayer : Bool) (player : Nat),
        minimax c1 board depth max_depth alpha beta maxPlayer player =
          minimax c2 board depth max_depth alpha beta maxPlayer player by
    intro c1 c2 board depth max_depth alpha beta maxPlayer player
    exact H (countEmpty board) board le_rfl c1 c2 depth max_depth alpha beta maxPlayer player
  intro N
  induction N with
  | zero =>
    intro board hb c1 c2 depth max_depth alpha beta maxPlayer player
    have hleaf : is_terminal_board board = true ∨ depth = max_depth :=
      Or.inl (terminal_of_countEmpty_zero (by omega))
    rw [minimax_leaf_eq hleaf, minimax_leaf_eq hleaf]
  | succ N ih =>
    intro board hb c1 c2 depth max_depth alpha beta maxPlayer player
    by_cases hleaf : is_terminal_board board = true ∨ depth = max_depth
    · rw [minimax_leaf_eq hleaf, minimax_leaf_eq hleaf]
    · push_neg at hleaf
      obtain ⟨hterm, hd⟩ := hleaf
      have hterm' := bool_not_true hterm
      have hchild : ∀ pp, pp ≠ EMPTY → ∀ c ∈ get_valid_locations board,
          ∀ (a b : XInt) (mp : Bool),
          minimax c1 (make_move board pp (lowest_row board c).toNat c)
            (depth + 1) max_depth a b mp player =
          minimax c2 (make_move board pp (lowest_row board c).toNat c)
            (depth + 1) max_depth a b mp player := by
        intro pp hpp c hc a b mp
        have hlt := countEmpty_child_lt hc hpp
        exact ih _ (by omega) c1 c2 (depth + 1) max_depth a b mp player
      cases maxPlayer with
      | true =>
        rw [minimax_to_loop_max hterm' hd, minimax_to_loop_max hterm' hd]
        exact loopI _ _ _ _ _ _ _ _ _
          (hchild _ (piece_ne_empty player))
          (Or.inr ⟨by simp, valid_ne_nil_of_not_terminal hterm'⟩)
      | false =>
        rw [minimax_to_loop_min hterm' hd, minimax_to_loop_min hterm' hd]
        exact loopI _ _ _ _ _ _ _ _ _
          (hchild _ (opp_piece_ne_empty player))
          (Or.inr ⟨by simp, valid_ne_nil_of_not_terminal hterm'⟩)

/-! ### Where the returned column comes from -/

lemma minimaxLoop_col_cases {choice : List Nat → Nat} {board : Board}
    {depth max_depth : Nat} {player pp : Nat} :
    ∀ (cols : List Nat) (value : XInt) (column : Option Nat) (alpha beta : XInt)
      (maxP : Bool)
      (hcols : ∀ c ∈ cols, c < COLUMNS ∧ -1 < lowest_row board c) (hpp : pp ≠ EMPTY),
      (minimaxLoop choice board depth max_depth cols value column alpha beta maxP player pp
        hcols hpp).1 = column ∨
      ∃ c ∈ cols, (minimaxLoop choice board depth max_depth cols value column alpha beta maxP
        player pp hcols hpp).1 = some c := by
  intro cols
  induction cols with
  | nil =>
    intro value column alpha beta maxP hcols hpp
    rw [minimaxLoop_nil]
    exact Or.inl rfl
  | cons col rest ih =>
    intro value column alpha beta maxP hcols hpp
    have hrest : ∀ c ∈ rest, c < COLUMNS ∧ -1 < lowest_row board c :=
      fun c hc => hcols c (List.mem_cons_of_mem _ hc)
    cases maxP with
    | true =>
      rw [minimaxLoop_cons_max hrest]
      by_cases hlt : value < childPV choice board depth max_depth alpha beta true player pp col
      · simp only [if_pos hlt]
        by_cases hbr : beta ≤ max alpha
            (childPV choice board depth max_depth alpha beta true player pp col)
        · rw [if_pos hbr]
          exact Or.inr ⟨col, List.mem_cons_self _ _, rfl⟩
        · rw [if_neg hbr]
          rcases ih _ _ _ _ _ hrest hpp with h | ⟨c, hc, h⟩
          · exact Or.inr ⟨col, List.mem_cons_self _ _, h⟩
          · exact Or.inr ⟨c, List.mem_cons_of_mem _ hc, h⟩
      · simp only [if_neg hlt]
        by_cases hbr : beta ≤ max alpha value
        · rw [if_pos hbr]
          exact Or.inl rfl
        · rw [if_neg hbr]
          rcases ih _ _ _ _ _ hrest hpp with h | ⟨c, hc, h⟩
          · exact Or.inl h
          · exact Or.inr ⟨c, List.mem_cons_of_mem _ hc, h⟩
    | false =>
      rw [minimaxLoop_cons_min hrest]
      by_cases hlt : childPV choice board depth max_depth alpha beta false player pp col < value
      · simp only [if_pos hlt]
        by_cases hbr : min beta
            (childPV choice board depth max_depth alpha beta false player pp col) ≤ alpha
        · rw [if_pos hbr]
          exact Or.inr ⟨col, List.mem_cons_self _ _, rfl⟩
        · rw [if_neg hbr]
          rcases ih _ _ _ _ _ hrest hpp with h | ⟨c, hc, h⟩
          · exact Or.inr ⟨col, List.mem_cons_self _ _, h⟩
          · exact Or.inr ⟨c, List.mem_cons_of_mem _ hc, h⟩
      · simp only [if_neg hlt]
        by_cases hbr : min beta value ≤ alpha
        · rw [if_pos hbr]
          exact Or.inl rfl
        · rw [if_neg hbr]
          rcases ih _ _ _ _ _ hrest hpp with h | ⟨c, hc, h⟩
          · exact Or.inl h
          · exact Or.inr ⟨c, List.mem_cons_of_mem _ hc, h⟩

lemma minimaxLoop_col_mem {choice : List Nat → Nat} {board : Board}
    {depth max_depth : Nat} {player pp : Nat} :
    ∀ (cols : List Nat) (column : Option Nat) (alpha beta : XInt) (maxP : Bool)
      (hcols : ∀ c ∈ cols, c < COLUMNS ∧ -1 < lowest_row board c) (hpp : pp ≠ EMPTY),
      cols ≠ [] →
      ∃ c ∈ cols, (minimaxLoop choice board depth max_depth cols
        (if maxP then XInt.negInf else XInt.posInf) column alpha beta maxP player pp
        hcols hpp).1 = some c := by
  intro cols
  cases cols with
  | nil =>
    intro column alpha beta maxP hcols hpp hne
    exact absurd rfl hne
  | cons col rest =>
    intro column alpha beta maxP hcols hpp _
    have hrest : ∀ c ∈ rest, c < COLUMNS ∧ -1 < lowest_row board c :=
      fun c hc => hcols c (List.mem_cons_of_mem _ hc)
    cases maxP with
    | true =>
      obtain ⟨m, hm⟩ := minimax_val_fin choice
        (make_move board pp (lowest_row board col).toNat col)
        (depth + 1) max_depth alpha beta (!true) player
      have hlt : (XInt.negInf :
          XInt) < childPV choice board depth max_depth alpha beta true player pp col := by
        have : childPV choice board depth max_depth alpha beta true player pp col =
            XInt.fin m := hm
        rw [this]
        exact XInt.negInf_lt_fin m
      rw [show (if (true : Bool) = true then XInt.negInf else XInt.posInf) =
        XInt.negInf from rfl]
      rw [minimaxLoop_cons_max hrest]
      simp only [if_pos hlt]
      by_cases hbr : beta ≤ max alpha
          (childPV choice board depth max_depth alpha beta true player pp col)
      · rw [if_pos hbr]
        exact ⟨col, List.mem_cons_self _ _, rfl⟩
      · rw [if_neg hbr]
        rcases minimaxLoop_col_cases rest _ (some col) _ _ _ hrest hpp with h | ⟨c, hc, h⟩
        · exact ⟨col, List.mem_cons_self _ _, h⟩
        · exact ⟨c, List.mem_cons_of_mem _ hc, h⟩
    | false =>
      obtain ⟨m, hm⟩ := minimax_val_fin choice
        (make_move board pp (lowest_row board col).toNat col)
        (depth + 1) max_depth alpha beta (!false) player
      have hlt : childPV choice board depth max_depth alpha beta false player pp col <
          XInt.posInf := by
        have : childPV choice board depth max_depth alpha beta false player pp col =
            XInt.fin m := hm
        rw [this]
        exact XInt.fin_lt_posInf m
      rw [show (if (false : Bool) = true then XInt.negInf else XInt.posInf) =
        XInt.posInf from rfl]
      rw [minimaxLoop_cons_min hrest]
      simp only [if_pos hlt]
      by_cases hbr : min beta
          (childPV choice board depth max_depth alpha beta false player pp col) ≤ alpha
      · rw [if_pos hbr]
        exact ⟨col, List.mem_cons_self _ _, rfl⟩
      · rw [if_neg hbr]
        rcases minimaxLoop_col_cases rest _ (some col) _ _ _ hrest hpp with h | ⟨c, hc, h⟩
        · exact ⟨col, List.mem_cons_self _ _, h⟩
        · exact ⟨c, List.mem_cons_of_mem _ hc, h⟩

/-- On a non-terminal board strictly below the depth limit, the pruned search
returns a column that is a valid location of the board. -/
lemma minimax_col_valid {choice : List Nat → Nat} {board : Board}
    {depth max_depth : Nat} {alpha beta : XInt} {maxPlayer : Bool} {player : Nat}
    (hterm : is_terminal_board board = false) (hd : depth ≠ max_depth) :
    ∃ c ∈ get_valid_locations board,
      (minimax choice board depth max_depth alpha beta maxPlayer player).1 = some c := by
  have hvne := valid_ne_nil_of_not_terminal hterm
  cases maxPlayer with
  | true =>
    rw [minimax_to_loop_max hterm hd]
    exact minimaxLoop_col_mem _ _ _ _ true _ _ hvne
  | false =>
    rw [minimax_to_loop_min hterm hd]
    exact minimaxLoop_col_mem _ _ _ _ false _ _ hvne

/-! ### Folds of max/min over lists (argmax reasoning) -/

lemma le_foldl_max : ∀ (l : List XInt) (v : XInt), v ≤ l.foldl max v := by
  intro l
  induction l with
  | nil => intro v; exact le_rfl
  | cons x l ih =>
    intro v
    rw [List.foldl_cons]
    exact le_trans (le_max_left v x) (ih (max v x))

lemma foldl_max_const : ∀ (l : List XInt) (v : XInt), (∀ x ∈ l, x ≤ v) → l.foldl max v = v := by
  intro l
  induction l with
  | nil => intro v _; rfl
  | cons x l ih =>
    intro v h
    rw [List.foldl_cons, max_eq_left (h x (List.mem_cons_self _ _))]
    exact ih v (fun y hy => h y (List.mem_cons_of_mem _ hy))

lemma mem_le_foldl_max : ∀ (l : List XInt) (v x : XInt), x ∈ l → x ≤ l.foldl max v := by
  intro l
  induction l with
  | nil => intro v x hx; exact absurd hx (List.not_mem_nil x)
  | cons y l ih =>
    intro v x hx
    rw [List.foldl_cons]
    rcases List.mem_cons.mp hx with rfl | hx
    · exact le_trans (le_max_right v x) (le_foldl_max l _)
    · exact ih _ x hx

lemma foldl_min_le : ∀ (l : List XInt) (v : XInt), l.foldl min v ≤ v := by
  intro l
  induction l with
  | nil => intro v; exact le_rfl
  | cons x l ih =>
    intro v
    rw [List.foldl_cons]
    exact le_trans (ih (min v x)) (min_le_left v x)

lemma foldl_min_const : ∀ (l : List XInt) (v : XInt), (∀ x ∈ l, v ≤ x) → l.foldl min v = v := by
  intro l
  induction l with
  | nil => intro v _; rfl
  | cons x l ih =>
    intro v h
    rw [List.foldl_cons, min_eq_left (h x (List.mem_cons_self _ _))]
    exact ih v (fun y hy => h y (List.mem_cons_of_mem _ hy))

lemma foldl_min_le_mem : ∀ (l : List XInt) (v x : XInt), x ∈ l → (l.foldl min v) ≤ x := by
  intro l
  induction l with
  | nil => intro v x hx; exact absurd hx (List.not_mem_nil x)
  | cons y l ih =>
    intro v x hx
    rw [List.foldl_cons]
    rcases List.mem_cons.mp hx with rfl | hx
    · exact le_trans (foldl_min_le l _) (min_le_right v x)
    · exact ih _ x hx

/-! ### The unpruned loop computes the first argmax / argmin -/

lemma loopNP_argmax {board : Board} {depth max_depth : Nat} {player pp : Nat} :
    ∀ (cols : List Nat) (value : XInt) (column : Option Nat)
      (hcols : ∀ c ∈ cols, c < COLUMNS ∧ -1 < lowest_row board c) (hpp : pp ≠ EMPTY),
      ((minimaxNPLoop board depth max_depth cols value column true player pp hcols hpp).2 =
        (cols.map (childNPV board depth max_depth true player pp)).foldl max value) ∧
      (value < (cols.map (childNPV board depth max_depth true player pp)).foldl max value →
        (minimaxNPLoop board depth max_depth cols value column true player pp hcols hpp).1 =
          cols.find? (fun c => childNPV board depth max_depth true player pp c ==
            (cols.map (childNPV board depth max_depth true player pp)).foldl max value)) ∧
      (¬ value < (cols.map (childNPV board depth max_depth true player pp)).foldl max value →
        (minimaxNPLoop board depth max_depth cols value column true player pp hcols hpp).1 =
          column) := by
  intro cols
  induction cols with
  | nil =>
    intro value column hcols hpp
    rw [minimaxNPLoop_nil]
    exact ⟨rfl, fun h => absurd h (lt_irrefl _), fun _ => rfl⟩
  | cons col rest ih =>
    intro value column hcols hpp
    have hrest : ∀ c ∈ rest, c < COLUMNS ∧ -1 < lowest_row board c :=
      fun c hc => hcols c (List.mem_cons_of_mem _ hc)
    rw [minimaxNPLoop_cons_max hrest, ite_lt_eq_max, List.map_cons, List.foldl_cons]
    have ih' := ih (max value (childNPV board depth max_depth true player pp col))
      (if value < childNPV board depth max_depth true player pp col then some col else column)
      hrest hpp
    have hvM : value ≤ (List.map (childNPV board depth max_depth true player pp) rest).foldl
        max (max value (childNPV board depth max_depth true player pp col)) :=
      le_trans (le_max_left _ _) (le_foldl_max _ _)
    have hsM_le : childNPV board depth max_depth true player pp col ≤
        (List.map (childNPV board depth max_depth true player pp) rest).foldl
          max (max value (childNPV board depth max_depth true player pp col)) :=
      le_trans (le_max_right _ _) (le_foldl_max _ _)
    refine ⟨ih'.1, ?_, ?_⟩
    · intro hvltM
      by_cases hsM : childNPV board depth max_depth true player pp col =
          (List.map (childNPV board depth max_depth true player pp) rest).foldl
            max (max value (childNPV board depth max_depth true player pp col))
      · have hfind : List.find? (fun c => childNPV board depth max_depth true player pp c ==
            (List.map (childNPV board depth max_depth true player pp) rest).foldl
              max (max value (childNPV board depth max_depth true player pp col)))
              (col :: rest) = some col :=
          List.find?_cons_of_pos _ (by exact beq_iff_eq.mpr hsM)
        rw [hfind]
        have hvlts : value < childNPV board depth max_depth true player pp col := by
          rw [hsM]
          exact hvltM
        have hmax : max value (childNPV board depth max_depth true player pp col) =
            childNPV board depth max_depth true player pp col :=
          max_eq_right (le_of_lt hvlts)
        have hnm : ¬ max value (childNPV board depth max_depth true player pp col) <
            (List.map (childNPV board depth max_depth true player pp) rest).foldl
              max (max value (childNPV board depth max_depth true player pp col)) :=
          not_lt_of_le (le_of_eq (hmax.trans hsM).symm)
        rw [ih'.2.2 hnm, if_pos hvlts]
      · have hslt : childNPV board depth max_depth true player pp col <
            (List.map (childNPV board depth max_depth true player pp) rest).foldl
              max (max value (childNPV board depth max_depth true player pp col)) :=
          lt_of_le_of_ne hsM_le hsM
        have hfind : List.find? (fun c => childNPV board depth max_depth true player pp c ==
            (List.map (childNPV board depth max_depth true player pp) rest).foldl
              max (max value (childNPV board depth max_depth true player pp col)))
              (col :: rest) =
            List.find? (fun c => childNPV board depth max_depth true player pp c ==
              (List.map (childNPV board depth max_depth true player pp) rest).foldl
                max (max value (childNPV board depth max_depth true player pp col))) rest :=
          List.find?_cons_of_neg _ (fun h => hsM (beq_iff_eq.mp h))
        rw [hfind]
        exact ih'.2.1 (max_lt hvltM hslt)
    · intro hnv
      have hMv : (List.map (childNPV board depth max_depth true player pp) rest).foldl
          max (max value (childNPV board depth max_depth true player pp col)) ≤ value :=
        le_of_not_lt hnv
      have hsv : childNPV board depth max_depth true player pp col ≤ value :=
        le_trans hsM_le hMv
      have hmax : max value (childNPV board depth max_depth true player pp col) = value :=
        max_eq_left hsv
      have hnm : ¬ max value (childNPV board depth max_depth true player pp col) <
          (List.map (childNPV board depth max_depth true player pp) rest).foldl
            max (max value (childNPV board depth max_depth true player pp col)) :=
        not_lt_of_le (le_trans hMv (le_max_left _ _))
      rw [ih'.2.2 hnm, if_neg (not_lt_of_le hsv)]

lemma loopNP_argmin {board : Board} {depth max_depth : Nat} {player pp : Nat} :
    ∀ (cols : List Nat) (value : XInt) (column : Option Nat)
      (hcols : ∀ c ∈ cols, c < COLUMNS ∧ -1 < lowest_row board c) (hpp : pp ≠ EMPTY),
      ((minimaxNPLoop board depth max_depth cols value column false player pp hcols hpp).2 =
        (cols.map (childNPV board depth max_depth false player pp)).foldl min value) ∧
      ((cols.map (childNPV board depth max_depth false player pp)).foldl min value < value →
        (minimaxNPLoop board depth max_depth cols value column false player pp hcols hpp).1 =
          cols.find? (fun c => childNPV board depth max_depth false player pp c ==
            (cols.map (childNPV board depth max_depth false player pp)).foldl min value)) ∧
      (¬ (cols.map (childNPV board depth max_depth false player pp)).foldl min value < value →
        (minimaxNPLoop board depth max_depth cols value column false player pp hcols hpp).1 =
          column) := by
  intro cols
  induction cols with
  | nil =>
    intro value column hcols hpp
    rw [minimaxNPLoop_nil]
    exact ⟨rfl, fun h => absurd h (lt_irrefl _), fun _ => rfl⟩
  | cons col rest ih =>
    intro value column hcols hpp
    have hrest : ∀ c ∈ rest, c < COLUMNS ∧ -1 < lowest_row board c :=
      fun c hc => hcols c (List.mem_cons_of_mem _ hc)
    rw [minimaxNPLoop_cons_min hrest, ite_lt_eq_min, List.map_cons, List.foldl_cons]
    have ih' := ih (min value (childNPV board depth max_depth false player pp col))
      (if childNPV board depth max_depth false player pp col < value then some col else column)
      hrest hpp
    have hvM : (List.map (childNPV board depth max_depth false player pp) rest).foldl
        min (min value (childNPV board depth max_depth false player pp col)) ≤ value :=
      le_trans (foldl_min_le _ _) (min_le_left _ _)
    have hsM_le : (List.map (childNPV board depth max_depth false player pp) rest).foldl
        min (min value (childNPV board depth max_depth false player pp col)) ≤
          childNPV board depth max_depth false player pp col :=
      le_trans (foldl_min_le _ _) (min_le_right _ _)
    refine ⟨ih'.1, ?_, ?_⟩
    · intro hvltM
      by_cases hsM : childNPV board depth max_depth false player pp col =
          (List.map (childNPV board depth max_depth false player pp) rest).foldl
            min (min value (childNPV board depth max_depth false player pp col))
      · have hfind : List.find? (fun c => childNPV board depth max_depth false player pp c ==
            (List.map (childNPV board depth max_depth false player pp) rest).foldl
              min (min value (childNPV board depth max_depth false player pp col)))
              (col :: rest) = some col :=
          List.find?_cons_of_pos _ (by exact beq_iff_eq.mpr hsM)
        rw [hfind]
        have hvlts : childNPV board depth max_depth false player pp col < value := by
          rw [hsM]
          exact hvltM
        have hmin : min value (childNPV board depth max_depth false player pp col) =
            childNPV board depth max_depth false player pp col :=
          min_eq_right (le_of_lt hvlts)
        have hnm : ¬ (List.map (childNPV board depth max_depth false player pp) rest).foldl
            min (min value (childNPV board depth max_depth false player pp col)) <
              min value (childNPV board depth max_depth false player pp col) :=
          not_lt_of_le (le_of_eq (hmin.trans hsM))
        rw [ih'.2.2 hnm, if_pos hvlts]
      · have hslt : (List.map (childNPV board depth max_depth false player pp) rest).foldl
            min (min value (childNPV board depth max_depth false player pp col)) <
              childNPV board depth max_depth false player pp col :=
          lt_of_le_of_ne hsM_le (fun h => hsM h.symm)
        have hfind : List.find? (fun c => childNPV board depth max_depth false player pp c ==
            (List.map (childNPV board depth max_depth false player pp) rest).foldl
              min (min value (childNPV board depth max_depth false player pp col)))
              (col :: rest) =
            List.find? (fun c => childNPV board depth max_depth false player pp c ==
              (List.map (childNPV board depth max_depth false player pp) rest).foldl
                min (min value (childNPV board depth max_depth false player pp col))) rest :=
          List.find?_cons_of_neg _ (fun h => hsM (beq_iff_eq.mp h))
        rw [hfind]
        exact ih'.2.1 (lt_min hvltM hslt)
    · intro hnv
      have hMv : value ≤ (List.map (childNPV board depth max_depth false player pp) rest).foldl
          min (min value (childNPV board depth max_depth false player pp col)) :=
        le_of_not_lt hnv
      have hsv : value ≤ childNPV board depth max_depth false player pp col :=
        le_trans hMv hsM_le
      have hmin : min value (childNPV board depth max_depth false player pp col) = value :=
        min_eq_left hsv
      have hnm : ¬ (List.map (childNPV board depth max_depth false player pp) rest).foldl
          min (min value (childNPV board depth max_depth false player pp col)) <
            min value (childNPV board depth max_depth false player pp col) :=
        not_lt_of_le (le_trans (min_le_left _ _) hMv)
      rw [ih'.2.2 hnm, if_neg (not_lt_of_le hsv)]

/-- The returned column is `none` exactly on terminal boards and at the
depth limit. -/
lemma minimax_col_none_iff {choice : List Nat → Nat} {board : Board}
    {depth max_depth : Nat} {alpha beta : XInt} {maxPlayer : Bool} {player : Nat} :
    (minimax choice board depth max_depth alpha beta maxPlayer player).1 = none ↔
      (is_terminal_board board = true ∨ depth = max_depth) := by
  constructor
  · intro h
    by_contra hcon
    push_neg at hcon
    obtain ⟨hterm, hd⟩ := hcon
    obtain ⟨c, _, hc⟩ := @minimax_col_valid choice board depth max_depth alpha beta
      maxPlayer player (bool_not_true hterm) hd
    rw [h] at hc
    exact Option.noConfusion hc
  · intro h
    by_cases hterm : is_terminal_board board = true
    · by_cases hw : check_win board player = true
      · rw [minimax_of_win hw]
      · by_cases hl : check_win board ((player + 1) % 2) = true
        · rw [minimax_of_opp_win (bool_not_true hw) hl]
        · rw [minimax_of_draw hterm (bool_not_true hw) (bool_not_true hl)]
    · have hd : depth = max_depth := by tauto
      rw [minimax_of_depth (bool_not_true hterm) hd]

/-! ### The windows summed by `score_board` -/

/-- The horizontal windows traversed by `score_board`, in traversal order. -/
def horizWindows (board : Board) : List (List Nat) :=
  ((List.range ROWS).map fun row =>
    (List.range (COLUMNS - CONNECT + 1)).map fun col => horiz_window board row col).join

/-- The vertical windows traversed by `score_board`, in traversal order. -/
def vertWindows (board : Board) : List (List Nat) :=
  ((List.range COLUMNS).map fun col =>
    (List.range (ROWS - CONNECT + 1)).map fun row => vert_window board row col).join

/-- The first family of diagonal windows traversed by `score_board`. -/
def diagAWindows (board : Board) : List (List Nat) :=
  ((List.range (ROWS - CONNECT + 1)).map fun row =>
    (List.range (COLUMNS - CONNECT + 1)).map fun col => diagA_window board row col).join

/-- The second family of diagonal windows traversed by `score_board`. -/
def diagBWindows (board : Board) : List (List Nat) :=
  ((List.range (ROWS - CONNECT + 1)).map fun row =>
    (List.range (COLUMNS - CONNECT + 1)).map fun col => diagB_window board row col).join

/-- All 4-cell windows summed by `score_board`, in traversal order. -/
def allWindows (board : Board) : List (List Nat) :=
  horizWindows board ++ vertWindows board ++ diagAWindows board ++ diagBWindows board

lemma sum_join_map {α : Type} (L : List (List α)) (f : α → Int) :
    (L.join.map f).sum = (L.map (fun l => (l.map f).sum)).sum := by
  induction L with
  | nil => rfl
  | cons l L ih =>
    simp [List.join, List.map_append, List.sum_append, Function.comp, ih]
    rfl

lemma score_board_eq_sum_allWindows (board : Board) (player : Nat) :
    score_board board player =
      ((allWindows board).map (fun w => score_window w player)).sum := by
  unfold allWindows score_board
  simp only [List.map_append, List.sum_append, sum_join_map, horizWindows, vertWindows,
    diagAWindows, diagBWindows, List.map_map]
  rfl

lemma horizWindows_length (board : Board) : (horizWindows board).length = 24 := rfl

lemma vertWindows_length (board : Board) : (vertWindows board).length = 21 := rfl

lemma diagAWindows_length (board : Board) : (diagAWindows board).length = 12 := rfl

lemma diagBWindows_length (board : Board) : (diagBWindows board).length = 12 := rfl

lemma allWindows_length (board : Board) : (allWindows board).length = 69 := rfl

/-! ### The possible values of `score_window` -/

lemma count_three_le_length (l : List Nat) (a b c : Nat)
    (hab : a ≠ b) (hac : a ≠ c) (hbc : b ≠ c) :
    l.count a + l.count b + l.count c ≤ l.length := by
  induction l with
  | nil => simp
  | cons x l ih =>
    simp only [List.count_cons, List.length_cons]
    by_cases hxa : x = a <;> by_cases hxb : x = b <;> by_cases hxc : x = c <;>
      simp_all <;> omega

lemma score_window_player_norm {window : List Nat} {player : Nat}
    (h : (player == 1) = false) :
    score_window window player = score_window window 0 := by
  unfold score_window
  rw [h]
  rfl

lemma score_window_mem_values (window : List Nat) (player : Nat)
    (hlen : window.length = 4) :
    score_window window player ∈ ([100, 5, 2, 0, -1, -4] : List Int) := by
  have hkey : ∀ pw ow : Nat, pw ≠ ow → pw ≠ EMPTY → ow ≠ EMPTY →
      (let own : Int :=
        if window.count pw == 4 then 100
        else if window.count pw == 3 && window.count EMPTY == 1 then 5
        else if window.count pw == 2 && window.count EMPTY == 2 then 2
        else 0
       let opp : Int :=
        if window.count ow == 3 && window.count EMPTY == 1 then -4
        else if window.count ow == 2 && window.count EMPTY == 2 then -1
        else 0
       own + opp) ∈ ([100, 5, 2, 0, -1, -4] : List Int) := by
    intro pw ow hpo hpe hoe
    have hcnt := count_three_le_length window pw ow EMPTY hpo hpe hoe
    rw [hlen] at hcnt
    simp only []
    split_ifs with h1 h2 h3 h4 h5 <;>
      simp_all only [beq_iff_eq, Bool.and_eq_true] <;>
      first
        | (exfalso; omega)
        | decide
  unfold score_window
  by_cases hp : (player == 1) = true
  · rw [hp]
    exact hkey P2_PIECE P1_PIECE (by decide) (by decide) (by decide)
  · rw [bool_not_true hp]
    exact hkey P1_PIECE P2_PIECE (by decide) (by decide) (by decide)

lemma score_board_init (player : Nat) : score_board init_board player = 0 := by
  by_cases hp : (player == 1) = true
  · have h1 : player = 1 := by simpa using hp
    subst h1
    decide
  · have hnorm : score_board init_board player = score_board init_board 0 := by
      unfold score_board
      simp only [score_window_player_norm (bool_not_true hp)]
    rw [hnorm]
    decide

/-! ### `check_win` detects exactly the four-in-a-row configurations -/

/-- Specification-side predicate: four consecutive cells of `piece` exist in
some horizontal, vertical or diagonal line of the board. -/
def hasFourInRow (board : Board) (piece : Nat) : Prop :=
  (∃ row col, row < ROWS ∧ col + CONNECT ≤ COLUMNS ∧
    ∀ i < CONNECT, board row (col + i) = piece) ∨
  (∃ row col, row + CONNECT ≤ ROWS ∧ col < COLUMNS ∧
    ∀ i < CONNECT, board (row + i) col = piece) ∨
  (∃ row col, row + CONNECT ≤ ROWS ∧ COLUMNS - CONNECT ≤ col ∧ col < COLUMNS ∧
    ∀ i < CONNECT, board (row + i) (col - i) = piece) ∨
  (∃ row col, row + CONNECT ≤ ROWS ∧ col + CONNECT ≤ COLUMNS ∧
    ∀ i < CONNECT, board (row + i) (col + i) = piece)

lemma countP_range4 (p : Nat → Bool) :
    (List.range 4).countP p = 4 ↔ ∀ i < 4, p i = true := by
  constructor
  · intro h i hi
    have hall := (List.countP_eq_length (p := p) (l := List.range 4)).mp (by simpa using h)
    exact hall i (List.mem_range.mpr hi)
  · intro h
    have hall := (List.countP_eq_length (p := p) (l := List.range 4)).mpr
      (fun a ha => h a (List.mem_range.mp ha))
    simpa using hall

lemma mem_rng {a b c : Nat} : c ∈ rng a b ↔ ∃ i, i < b - a ∧ c = a + i := by
  simp only [rng, List.mem_map, List.mem_range]
  constructor
  · rintro ⟨i, hi, rfl⟩
    exact ⟨i, hi, rfl⟩
  · rintro ⟨i, hi, rfl⟩
    exact ⟨i, hi, rfl⟩

lemma check_win_iff_hasFour (board : Board) (player : Nat) :
    check_win board player = true ↔
      hasFourInRow board (if player == 1 then P2_PIECE else P1_PIECE) := by
  unfold check_win hasFourInRow
  simp only [ROWS, COLUMNS, CONNECT, Bool.or_eq_true, List.any_eq_true, List.mem_range,
    mem_rng, beq_iff_eq, countP_range4]
  constructor
  · rintro (((⟨row, hrow, col, hcol, hall⟩ | ⟨col, hcol, row, hrow, hall⟩) |
      ⟨row, hrow, col, ⟨i, hi, rfl⟩, hall⟩) | ⟨row, hrow, col, hcol, hall⟩)
    · exact Or.inl ⟨row, col, hrow, by omega, hall⟩
    · exact Or.inr (Or.inl ⟨row, col, by omega, hcol, hall⟩)
    · exact Or.inr (Or.inr (Or.inl ⟨row, 3 + i, by omega, by omega, by omega, hall⟩))
    · exact Or.inr (Or.inr (Or.inr ⟨row, col, by omega, by omega, hall⟩))
  · rintro (⟨row, col, hrow, hcol, hall⟩ | ⟨row, col, hrow, hcol, hall⟩ |
      ⟨row, col, hrow, hcol1, hcol2, hall⟩ | ⟨row, col, hrow, hcol, hall⟩)
    · exact Or.inl (Or.inl (Or.inl ⟨row, hrow, col, by omega, hall⟩))
    · exact Or.inl (Or.inl (Or.inr ⟨col, hcol, row, by omega, hall⟩))
    · exact Or.inl (Or.inr ⟨row, by omega, col, ⟨col - 3, by omega, by omega⟩, hall⟩)
    · exact Or.inr ⟨row, by omega, col, by omega, hall⟩

/-! ### Gravity invariant for boards built by legal moves -/

lemma lowest_row_pos_iff {board : Board} {col : Nat} :
    -1 < lowest_row board col ↔ ∃ r, r < ROWS ∧ board r col = EMPTY := by
  constructor
  · intro h
    obtain ⟨h1, h2, _⟩ := lowest_row_spec h
    exact ⟨_, h1, h2⟩
  · rintro ⟨r, hr, he⟩
    cases hfind : (List.range ROWS).reverse.find? (fun row => board row col == EMPTY) with
    | some r' =>
      rw [lowest_row_of_find?_some hfind]
      omega
    | none =>
      exfalso
      have hall := lowest_row_eq_neg_one.mp (lowest_row_of_find?_none hfind)
      exact hall r hr he

/-- Boards reachable from the empty board by dropping pieces at the row
returned by `lowest_row` for a non-full column. -/
inductive Reachable : Board → Prop where
  | init : Reachable init_board
  | step {board : Board} {col piece : Nat} : Reachable board → col < COLUMNS →
      -1 < lowest_row board col → (piece = P1_PIECE ∨ piece = P2_PIECE) →
      Reachable (make_move board piece (lowest_row board col).toNat col)

/-- Gravity: in every column, no occupied cell sits above an empty cell. -/
def Gravity (board : Board) : Prop :=
  ∀ col, col < COLUMNS → ∀ row, row + 1 < ROWS →
    board row col ≠ EMPTY → board (row + 1) col ≠ EMPTY

lemma gravity_init : Gravity init_board :=
  fun _ _ _ _ h => absurd rfl h

lemma gravity_step {board : Board} (hg : Gravity board) {col piece : Nat}
    (hcol : col < COLUMNS) (hlow : -1 < lowest_row board col) (hp : piece ≠ EMPTY) :
    Gravity (make_move board piece (lowest_row board col).toNat col) := by
  obtain ⟨hrlt, hempty, habove⟩ := lowest_row_spec hlow
  intro c hc row hrow hne
  by_cases hcc : c = col
  · subst hcc
    by_cases hrr : row = (lowest_row board c).toNat
    · have hb := habove (row + 1) (by omega) (by omega)
      simp only [make_move]
      rw [if_neg (fun hand => by
        have h1 := hand.1
        omega)]
      exact hb
    · have hne' : board row c ≠ EMPTY := by
        simp only [make_move] at hne
        rw [if_neg (fun hand => hrr hand.1)] at hne
        exact hne
      have hb := hg c hc row hrow hne'
      by_cases hr1 : row + 1 = (lowest_row board c).toNat
      · simp only [make_move]
        rw [if_pos ⟨hr1, trivial⟩]
        exact hp
      · simp only [make_move]
        rw [if_neg (fun hand => hr1 hand.1)]
        exact hb
  · have hne' : board row c ≠ EMPTY := by
      simp only [make_move] at hne
      rw [if_neg (fun hand => hcc hand.2)] at hne
      exact hne
    have hb := hg c hc row hrow hne'
    simp only [make_move]
    rw [if_neg (fun hand => hcc hand.2)]
    exact hb

lemma reachable_gravity : ∀ board : Board, Reachable board → Gravity board := by
  intro board h
  induction h with
  | init => exact gravity_init
  | step hre hcol hlow hp ih =>
    refine gravity_step ih hcol hlow ?_
    rcases hp with rfl | rfl <;> decide

/-! ### Root-level characterisation of the chosen column -/

/-- The backed-up value of playing column `col`: the unpruned minimax value of
the board obtained by dropping the piece of the side on move at this ply. -/
def backedUpValue (board : Board) (depth max_depth : Nat) (maxPlayer : Bool)
    (player col : Nat) : XInt :=
  childNPV board depth max_depth maxPlayer player
    (if maxPlayer then (if player == 1 then P2_PIECE else P1_PIECE)
     else (if player == 1 then P1_PIECE else P2_PIECE)) col

lemma minimax_root_spec {choice : List Nat → Nat} {board : Board}
    {depth max_depth : Nat} {maxPlayer : Bool} {player : Nat}
    (hterm : is_terminal_board board = false) (hd : depth ≠ max_depth) :
    ((minimax choice board depth max_depth XInt.negInf XInt.posInf maxPlayer player).2 =
      (if maxPlayer then
        ((get_valid_locations board).map
          (backedUpValue board depth max_depth maxPlayer player)).foldl max XInt.negInf
      else
        ((get_valid_locations board).map
          (backedUpValue board depth max_depth maxPlayer player)).foldl min XInt.posInf)) ∧
    ((minimax choice board depth max_depth XInt.negInf XInt.posInf maxPlayer player).1 =
      (get_valid_locations board).find? (fun c =>
        backedUpValue board depth max_depth maxPlayer player c ==
        (minimax choice board depth max_depth XInt.negInf XInt.posInf maxPlayer player).2)) := by
  obtain ⟨c0, cs, hval⟩ := List.exists_cons_of_ne_nil (valid_ne_nil_of_not_terminal hterm)
  rw [minimax_eq_minimaxNP]
  cases maxPlayer with
  | true =>
    rw [minimaxNP_to_loop_max hterm hd]
    have ft := @loopNP_argmax board depth max_depth player
      (if player == 1 then P2_PIECE else P1_PIECE)
      (get_valid_locations board) XInt.negInf none
      (fun c hc => mem_valid_locations.mp hc) (piece_ne_empty player)
    refine ⟨ft.1, ?_⟩
    have hc0 : c0 ∈ get_valid_locations board := by
      rw [hval]
      exact List.mem_cons_self _ _
    obtain ⟨n, hn⟩ := minimaxNP_val_fin
      (make_move board (if player == 1 then P2_PIECE else P1_PIECE)
        (lowest_row board c0).toNat c0) (depth + 1) max_depth (!true) player
    have hM : XInt.negInf < ((get_valid_locations board).map
        (childNPV board depth max_depth true player
          (if player == 1 then P2_PIECE else P1_PIECE))).foldl max XInt.negInf := by
      have hmem : childNPV board depth max_depth true player
          (if player == 1 then P2_PIECE else P1_PIECE) c0 ∈
          (get_valid_locations board).map (childNPV board depth max_depth true player
            (if player == 1 then P2_PIECE else P1_PIECE)) :=
        List.mem_map_of_mem _ hc0
      have hfin : childNPV board depth max_depth true player
          (if player == 1 then P2_PIECE else P1_PIECE) c0 = XInt.fin n := hn
      calc XInt.negInf < XInt.fin n := XInt.negInf_lt_fin n
        _ = childNPV board depth max_depth true player
            (if player == 1 then P2_PIECE else P1_PIECE) c0 := hfin.symm
        _ ≤ _ := mem_le_foldl_max _ _ _ hmem
    have hcol := ft.2.1 hM
    rw [ft.1]
    exact hcol
  | false =>
    rw [minimaxNP_to_loop_min hterm hd]
    have ft := @loopNP_argmin board depth max_depth player
      (if player == 1 then P1_PIECE else P2_PIECE)
      (get_valid_locations board) XInt.posInf none
      (fun c hc => mem_valid_locations.mp hc) (opp_piece_ne_empty player)
    refine ⟨ft.1, ?_⟩
    have hc0 : c0 ∈ get_valid_locations board := by
      rw [hval]
      exact List.mem_cons_self _ _
    obtain ⟨n, hn⟩ := minimaxNP_val_fin
      (make_move board (if player == 1 then P1_PIECE else P2_PIECE)
        (lowest_row board c0).toNat c0) (depth + 1) max_depth (!false) player
    have hM : ((get_valid_locations board).map
        (childNPV board depth max_depth false player
          (if player == 1 then P1_PIECE else P2_PIECE))).foldl min XInt.posInf <
        XInt.posInf := by
      have hmem : childNPV board depth max_depth false player
          (if player == 1 then P1_PIECE else P2_PIECE) c0 ∈
          (get_valid_locations board).map (childNPV board depth max_depth false player
            (if player == 1 then P1_PIECE else P2_PIECE)) :=
        List.mem_map_of_mem _ hc0
      have hfin : childNPV board depth max_depth false player
          (if player == 1 then P1_PIECE else P2_PIECE) c0 = XInt.fin n := hn
      calc _ ≤ childNPV board depth max_depth false player
            (if player == 1 then P1_PIECE else P2_PIECE) c0 := foldl_min_le_mem _ _ _ hmem
        _ = XInt.fin n := hfin
        _ < XInt.posInf := XInt.fin_lt_posInf n
    have hcol := ft.2.1 hM
    rw [ft.1]
    exact hcol

/-! ### Concrete boards used by witnesses and counterexamples -/

/-- A board with four `P1_PIECE` in the bottom row, columns 0-3. -/
def rowWinBoard : Board := fun r c => if r = 5 ∧ c < 4 then P1_PIECE else EMPTY

/-- A board entirely filled with `P1_PIECE`. -/
def onesBoard : Board := fun _ _ => P1_PIECE

/-- A board whose column 0 is completely full and all else empty. -/
def fullColBoard : Board := fun r c => if c = 0 then P1_PIECE else EMPTY

/-! ### The claims -/

/-- Claim C1: for every board, side, and depth, the alpha-beta-pruned search
started from `alpha = -infinity, beta = +infinity` returns the same column and
the same value as the unpruned exhaustive depth-limited minimax over the same
board, depth and reference side (proved for all boards and depths, which
subsumes all reachable pairs up to depth 4). -/
theorem claim1_alphabeta_equivalence :
    ∀ (choice : List Nat → Nat) (board : Board) (depth max_depth : Nat)
      (maxPlayer : Bool) (player : Nat),
      minimax choice board depth max_depth XInt.negInf XInt.posInf maxPlayer player =
        minimaxNP board depth max_depth maxPlayer player :=
  minimax_eq_minimaxNP

/-- Claim C2: the terminal check precedes the depth-limit check: a board won by
the reference side evaluates to `+1000000` and a board won by the opponent to
`-1000000` even when `depth = max_depth`; the heuristic value is returned only
on non-terminal boards at the depth limit, and a terminal board never yields
the heuristic value. -/
theorem claim2_terminal_before_depth :
    ∀ (choice : List Nat → Nat) (board : Board) (depth max_depth : Nat)
      (alpha beta : XInt) (maxPlayer : Bool) (player : Nat),
      (check_win board player = true →
        minimax choice board depth max_depth alpha beta maxPlayer player =
          (none, XInt.fin 1000000)) ∧
      (check_win board player = false → check_win board ((player + 1) % 2) = true →
        minimax choice board depth max_depth alpha beta maxPlayer player =
          (none, XInt.fin (-1000000))) ∧
      (is_terminal_board board = false → depth = max_depth →
        minimax choice board depth max_depth alpha beta maxPlayer player =
          (none, XInt.fin (score_board board player))) ∧
      (is_terminal_board board = true →
        ((minimax choice board depth max_depth alpha beta maxPlayer player).2 =
            XInt.fin 1000000 ∨
          (minimax choice board depth max_depth alpha beta maxPlayer player).2 =
            XInt.fin (-1000000) ∨
          (minimax choice board depth max_depth alpha beta maxPlayer player).2 =
            XInt.fin 0)) := by
  intro choice board depth max_depth alpha beta maxPlayer player
  refine ⟨fun hw => minimax_of_win hw, fun hw hl => minimax_of_opp_win hw hl,
    fun ht hd => minimax_of_depth ht hd, fun ht => ?_⟩
  by_cases hw : check_win board player = true
  · left
    rw [minimax_of_win hw]
  · by_cases hl : check_win board ((player + 1) % 2) = true
    · right
      left
      rw [minimax_of_opp_win (bool_not_true hw) hl]
    · right
      right
      rw [minimax_of_draw ht (bool_not_true hw) (bool_not_true hl)]

/-- Witness for C2: a board already won by the reference side, searched exactly
at the depth limit, still evaluates to `+1000000`. -/
theorem claim2_witness :
    minimax (fun _ => 0) rowWinBoard 3 3 XInt.negInf XInt.posInf true 0 =
      (none, XInt.fin 1000000) :=
  (claim2_terminal_before_depth (fun _ => 0) rowWinBoard 3 3
    XInt.negInf XInt.posInf true 0).1 (by decide)

/-- Counterexample for C3 as stated: `score_board` sums over 69 windows, not
92: on the all-`P1_PIECE` board every window scores exactly 100 for player 0,
and the total is 6900, not 9200; the vertical direction has 21 windows (not
28) and each diagonal direction has 12 (not 20). -/
theorem claim3_counterexample :
    (vertWindows onesBoard).length = 21 ∧ ¬ (vertWindows onesBoard).length = 28 ∧
    (diagAWindows onesBoard).length = 12 ∧ ¬ (diagAWindows onesBoard).length = 20 ∧
    (allWindows onesBoard).length = 69 ∧ ¬ (allWindows onesBoard).length = 92 ∧
    score_board onesBoard 0 = 6900 ∧ ¬ score_board onesBoard 0 = 9200 := by
  refine ⟨rfl, by decide, rfl, by decide, rfl, by decide, by decide, by decide⟩

/-- Claim C3 (amended): for every board and player, `score_board` is the sum of
`score_window` over exactly 69 four-cell windows: `ROWS × (COLUMNS - 3) = 24`
horizontal, `(ROWS - 3) × COLUMNS = 21` vertical, and
`(ROWS - 3) × (COLUMNS - 3) = 12` windows for each of the two diagonal
directions. -/
theorem claim3_window_sum :
    ∀ (board : Board) (player : Nat),
      score_board board player =
        ((allWindows board).map (fun w => score_window w player)).sum ∧
      (horizWindows board).length = ROWS * (COLUMNS - 3) ∧
      (horizWindows board).length = 24 ∧
      (vertWindows board).length = (ROWS - 3) * COLUMNS ∧
      (vertWindows board).length = 21 ∧
      (diagAWindows board).length = (ROWS - 3) * (COLUMNS - 3) ∧
      (diagAWindows board).length = 12 ∧
      (diagBWindows board).length = (ROWS - 3) * (COLUMNS - 3) ∧
      (diagBWindows board).length = 12 ∧
      (allWindows board).length = 69 :=
  fun board player =>
    ⟨score_board_eq_sum_allWindows board player, rfl, rfl, rfl, rfl, rfl, rfl, rfl, rfl, rfl⟩

/-- Claim C4: for every 4-cell window and every player, `score_window` returns
one of exactly {100, 5, 2, 0, -1, -4}, and `score_board` on the entirely empty
board returns 0 for every player. -/
theorem claim4_heuristic_values :
    (∀ (window : List Nat) (player : Nat), window.length = 4 →
      score_window window player ∈ ([100, 5, 2, 0, -1, -4] : List Int)) ∧
    (∀ player : Nat, score_board init_board player = 0) :=
  ⟨fun window player hlen => score_window_mem_values window player hlen, score_board_init⟩

/-- Witness for C4: a concrete window and the empty board. -/
theorem claim4_witness :
    score_window [P1_PIECE, EMPTY, EMPTY, EMPTY] 0 ∈ ([100, 5, 2, 0, -1, -4] : List Int) ∧
    score_board init_board 0 = 0 :=
  ⟨claim4_heuristic_values.1 [P1_PIECE, EMPTY, EMPTY, EMPTY] 0 rfl,
    claim4_heuristic_values.2 0⟩

/-- Counterexample for C5 as stated: on the empty board searched with
`depth = max_depth = 0` the returned column is `none`, yet the board is
neither terminal nor full (every column is a legal move). -/
theorem claim5_counterexample :
    (minimax (fun _ => 0) init_board 0 0 XInt.negInf XInt.posInf true 0).1 = none ∧
    is_terminal_board init_board = false ∧
    get_valid_locations init_board ≠ [] := by
  refine ⟨?_, by decide, by decide⟩
  rw [minimax_of_depth (by decide) rfl]

/-- Claim C5 (amended): the search returns a `none` column exactly when the
board is terminal or `depth = max_depth`; on a non-terminal board strictly
below the depth limit the returned column is never `none`. -/
theorem claim5_none_column :
    ∀ (choice : List Nat → Nat) (board : Board) (depth max_depth : Nat)
      (alpha beta : XInt) (maxPlayer : Bool) (player : Nat),
      (minimax choice board depth max_depth alpha beta maxPlayer player).1 = none ↔
        (is_terminal_board board = true ∨ depth = max_depth) :=
  fun _ _ _ _ _ _ _ _ => minimax_col_none_iff

/-- Claim C6: `check_win board player` is true if and only if four consecutive
cells of that side's piece (`P2_PIECE` when `player == 1`, else `P1_PIECE`)
exist along some horizontal, vertical or diagonal line of the board. -/
theorem claim6_win_detection :
    ∀ (board : Board) (player : Nat),
      check_win board player = true ↔
        hasFourInRow board (if player == 1 then P2_PIECE else P1_PIECE) :=
  check_win_iff_hasFour

/-- Claim C7: the result of the search does not depend on the random initial
column choice, and on a non-terminal board below the depth limit the search
from the full window returns the extremal backed-up value together with the
lowest-indexed valid column achieving it (first match of `find?` over the
ascending list of valid columns). -/
theorem claim7_tie_break_determinism :
    (∀ (c1 c2 : List Nat → Nat) (board : Board) (depth max_depth : Nat)
      (alpha beta : XInt) (maxPlayer : Bool) (player : Nat),
      minimax c1 board depth max_depth alpha beta maxPlayer player =
        minimax c2 board depth max_depth alpha beta maxPlayer player) ∧
    (∀ (choice : List Nat → Nat) (board : Board) (depth max_depth : Nat)
      (maxPlayer : Bool) (player : Nat),
      is_terminal_board board = false → depth ≠ max_depth →
      ((minimax choice board depth max_depth XInt.negInf XInt.posInf maxPlayer player).2 =
        (if maxPlayer then
          ((get_valid_locations board).map
            (backedUpValue board depth max_depth maxPlayer player)).foldl max XInt.negInf
        else
          ((get_valid_locations board).map
            (backedUpValue board depth max_depth maxPlayer player)).foldl min XInt.posInf)) ∧
      ((minimax choice board depth max_depth XInt.negInf XInt.posInf maxPlayer player).1 =
        (get_valid_locations board).find? (fun c =>
          backedUpValue board depth max_depth maxPlayer player c ==
          (minimax choice board depth max_depth XInt.negInf XInt.posInf maxPlayer player).2))) :=
  ⟨minimax_choice_indep,
    fun _ _ _ _ _ _ h1 h2 => minimax_root_spec h1 h2⟩

/-- Witness for C7: the empty board at depth 0 with limit 1 for the maximizing
reference side 0 and an arbitrary choice function. -/
theorem claim7_witness :
    ((minimax (fun _ => 3) init_board 0 1 XInt.negInf XInt.posInf true 0).2 =
      ((get_valid_locations init_board).map
        (backedUpValue init_board 0 1 true 0)).foldl max XInt.negInf) ∧
    ((minimax (fun _ => 3) init_board 0 1 XInt.negInf XInt.posInf true 0).1 =
      (get_valid_locations init_board).find? (fun c =>
        backedUpValue init_board 0 1 true 0 c ==
        (minimax (fun _ => 3) init_board 0 1 XInt.negInf XInt.posInf true 0).2)) :=
  claim7_tie_break_determinism.2 (fun _ => 3) init_board 0 1 true 0 (by decide) (by decide)

/-- Claim C8: `lowest_row` returns the largest row index whose cell in the
column is `EMPTY`, or the sentinel `-1` when the column is full; a full column
is excluded from `get_valid_locations`, which lists exactly the non-full
columns below `COLUMNS` in strictly ascending order. -/
theorem claim8_lowest_row :
    ∀ (board : Board) (col : Nat),
      ((∀ r, r < ROWS → board r col ≠ EMPTY) → lowest_row board col = -1) ∧
      (∀ r₀, r₀ < ROWS → board r₀ col = EMPTY →
        (∀ r, r₀ < r → r < ROWS → board r col ≠ EMPTY) →
        lowest_row board col = (r₀ : Int)) ∧
      (col ∈ get_valid_locations board ↔
        col < COLUMNS ∧ ∃ r, r < ROWS ∧ board r col = EMPTY) ∧
      List.Pairwise (· < ·) (get_valid_locations board) := by
  intro board col
  refine ⟨fun h => lowest_row_eq_neg_one.mpr h,
    fun r₀ h1 h2 h3 => lowest_row_eq_coe h1 h2 h3,
    mem_valid_locations.trans (and_congr_right fun _ => lowest_row_pos_iff),
    valid_locations_pairwise board⟩

/-- Witness for C8: a board whose column 0 holds 6 pieces: `lowest_row` yields
the sentinel there, the column is excluded from the valid locations, and the
empty column 1 yields row 5. -/
theorem claim8_witness :
    lowest_row fullColBoard 0 = -1 ∧
    lowest_row fullColBoard 1 = (5 : Int) ∧
    ¬ (0 ∈ get_valid_locations fullColBoard) := by
  refine ⟨(claim8_lowest_row fullColBoard 0).1 (by decide),
    (claim8_lowest_row fullColBoard 1).2.1 5 (by decide) (by decide)
      (fun r h1 h2 => by
        have h2' : r < 6 := h2
        exact (by omega : False).elim), ?_⟩
  intro hmem
  obtain ⟨-, r, hr, he⟩ := ((claim8_lowest_row fullColBoard 0).2.2.1).mp hmem
  simp [fullColBoard, P1_PIECE, EMPTY] at he

/-- Claim C9: starting from the empty board, after any sequence of moves each
placed at the row returned by `lowest_row` for a non-full column, every
column's occupied cells form a contiguous run ending at the bottom row: no
occupied cell has an empty cell below it. -/
theorem claim9_gravity : ∀ board : Board, Reachable board → Gravity board :=
  reachable_gravity

/-- Witness for C9: the board after one legal move in column 0. -/
theorem claim9_witness :
    Gravity (make_move init_board P1_PIECE (lowest_row init_board 0).toNat 0) :=
  claim9_gravity _ (Reachable.step Reachable.init (by decide) (by decide) (Or.inl rfl))

/-- Claim C10: whenever the search runs on a non-terminal board with depth
strictly below `max_depth`, the returned column is a member of
`get_valid_locations` of that board, in both the maximizing and the
minimizing branch. -/
theorem claim10_legal_move :
    ∀ (choice : List Nat → Nat) (board : Board) (depth max_depth : Nat)
      (alpha beta : XInt) (maxPlayer : Bool) (player : Nat),
      is_terminal_board board = false → depth < max_depth →
      ∃ c ∈ get_valid_locations board,
        (minimax choice board depth max_depth alpha beta maxPlayer player).1 = some c :=
  fun _ _ _ _ _ _ _ _ h1 h2 => minimax_col_valid h1 (by omega)

/-- Witness for C10: the empty board, depth 0, limit 1. -/
theorem claim10_witness :
    ∃ c ∈ get_valid_locations init_board,
      (minimax (fun _ => 0) init_board 0 1 XInt.negInf XInt.posInf true 0).1 = some c :=
  claim10_legal_move (fun _ => 0) init_board 0 1 XInt.negInf XInt.posInf true 0
    (by decide) (by decide)
